import Mathlib

/-!
Verification of the MyArchive wiki backend and auto-linking engine.

The definitions below are a shallow embedding of the JavaScript source:

* pages/cells rows and per-project databases (src/backend/db.js);
* the page routes, including path construction, the circular-move check and
  the descendant path cascade (src/unnamed/part_011, the pages router);
* the cell routes: creation with appended order index and the reorder
  endpoint (src/backend/routes/cells.js);
* the ALL-CAPS auto-link scan of the Cell component
  (src/frontend/src/components/Cell.jsx, handleInput);
* the search router's suggest-links candidate query (src/unnamed/part_010).

SQLite statements are modelled over in-memory lists of rows.  Statements run
through better-sqlite3's db.transaction are modelled as one atomic batch,
bare statements as single-statement batches; interrupting a run after a
prefix of batches models a mid-operation failure (a transaction rolls back,
so an interrupted transaction contributes nothing).  JavaScript while loops
over parent links are modelled with explicit fuel; the fuel is chosen large
enough to be exact on the acyclic states the theorems quantify over.
-/

namespace MyArchive

/-- A row of the pages table: id, title, nullable parent_id (self reference)
and the denormalized breadcrumb path (src/backend/db.js, initializeSchema). -/
structure Page where
  id : Nat
  title : String
  parent_id : Option Nat
  path : String
deriving Repr, DecidableEq

/-- A row of the cells table: id, owning page, type tag, opaque content and
the per-page order index (src/backend/db.js, initializeSchema). -/
structure Cell where
  id : Nat
  page_id : Nat
  ctype : String
  content : String
  order_index : Int
deriving Repr, DecidableEq

/-- One project database: the pages and cells tables plus the AUTOINCREMENT
counters used for freshly inserted row ids. -/
structure Db where
  pages : List Page
  cells : List Cell
  nextPageId : Nat
  nextCellId : Nat
deriving Repr, DecidableEq

/-- JavaScript truthiness of a nullable integer id: null and 0 are falsy.
This drives the while (currentId) loops and the parentId ? ... : ... tests
of the pages router. -/
def truthy : Option Nat → Bool
  | none => false
  | some n => decide (n ≠ 0)

/-- Lookup of a single row by page id, the SELECT ... FROM pages WHERE id = ?
query. -/
def findPage (ps : List Page) (i : Nat) : Option Page :=
  ps.find? (fun p => p.id = i)

/-- Lookup of a single row by cell id. -/
def findCell (cs : List Cell) (i : Nat) : Option Cell :=
  cs.find? (fun c => c.id = i)

/-- Children query: SELECT ... FROM pages WHERE parent_id = ?. -/
def childrenOf (ps : List Page) (i : Nat) : List Page :=
  ps.filter (fun p => p.parent_id = some i)

/-! ## Primitive UPDATE statements and transaction batches -/

/-- The UPDATE statements the routes issue against pages and cells rows. -/
inductive StoreOp where
  | updPage (id : Nat) (title : String) (parent : Option Nat) (path : String)
  | updPath (id : Nat) (path : String)
  | updCellOrder (cellId : Nat) (pageId : Nat) (idx : Int)
deriving Repr, DecidableEq

/-- Effect of one UPDATE statement on the database. -/
def applyStoreOp (db : Db) : StoreOp → Db
  | .updPage i t par pa =>
      { db with pages := db.pages.map (fun p =>
          if p.id = i then { p with title := t, parent_id := par, path := pa } else p) }
  | .updPath i pa =>
      { db with pages := db.pages.map (fun p =>
          if p.id = i then { p with path := pa } else p) }
  | .updCellOrder cid pid idx =>
      { db with cells := db.cells.map (fun c =>
          if c.id = cid ∧ c.page_id = pid then { c with order_index := idx } else c) }

/-- A batch is either a better-sqlite3 transaction (atomic: all statements or,
on failure, none) or a bare top-level statement. -/
inductive Batch where
  | tx (ops : List StoreOp)
  | single (op : StoreOp)
deriving Repr, DecidableEq

/-- Whether a batch is a bare (non-transactional) statement. -/
def Batch.isSingle : Batch → Bool
  | .tx _ => false
  | .single _ => true

def applyBatch (db : Db) : Batch → Db
  | .tx ops => ops.foldl applyStoreOp db
  | .single op => applyStoreOp db op

def runBatches (db : Db) (bs : List Batch) : Db := bs.foldl applyBatch db

/-- State observed when execution fails at batch i: the batches before i have
committed; batch i itself has not (a transaction rolls back on failure, and a
single SQLite statement is itself atomic). -/
def runInterrupted (db : Db) (bs : List Batch) (i : Nat) : Db :=
  runBatches db (bs.take i)

/-! ## Cell store (src/backend/routes/cells.js) -/

/-- The type list accepted by the POST/PUT cell route validation
(src/backend/routes/cells.js line 91). -/
def routeCellTypes : List String := ["header", "subheader", "text", "table", "ranking"]

/-- The CHECK(type IN ...) constraint of the cells table as created by
src/backend/db.js line 66. -/
def schemaCellTypes : List String := ["header", "subheader", "text"]

/-- The CHECK constraint after the migration in the other db.js revision of
the repository (src/unnamed/part_008 line 63), which adds table but still
not ranking. -/
def migratedSchemaCellTypes : List String := ["header", "subheader", "text", "table"]

/-- SELECT MAX(order_index) FROM cells WHERE page_id = ?; SQL MAX over no
rows is NULL. -/
def maxOrderIndex (cells : List Cell) (pid : Nat) : Option Int :=
  ((cells.filter (fun c => c.page_id = pid)).map (fun c => c.order_index)).max?

/-- The JavaScript expression (x || -1): null and 0 are both falsy, so a
maximum of 0 collapses to -1 exactly like a missing maximum. -/
def jsOrNegOne : Option Int → Int
  | none => -1
  | some v => if v = 0 then -1 else v

inductive CellErr where
  | pageNotFound
  | invalidType
  | storageCheck
deriving Repr, DecidableEq

/-- POST .../cells (src/backend/routes/cells.js lines 86-115): the
getDbFromPage middleware 404s unless the page exists; the handler rejects a
type outside routeCellTypes; an omitted orderIndex is computed as
(max || -1) + 1; the INSERT is subject to the schema CHECK constraint on
type, whose violation surfaces as a caught storage error. -/
def createCell (db : Db) (pid : Nat) (ctype : String) (content : Option String)
    (orderIndex : Option Int) : Except CellErr (Cell × Db) :=
  if (findPage db.pages pid).isNone then .error .pageNotFound
  else if ¬ routeCellTypes.contains ctype then .error .invalidType
  else
    let idx : Int := match orderIndex with
      | some i => i
      | none => jsOrNegOne (maxOrderIndex db.cells pid) + 1
    if ¬ schemaCellTypes.contains ctype then .error .storageCheck
    else
      let c : Cell := ⟨db.nextCellId, pid, ctype, content.getD "", idx⟩
      .ok (c, { db with cells := db.cells ++ [c], nextCellId := db.nextCellId + 1 })

/-- Pairs each list element with its forEach index starting at n. -/
def withIdx : Nat → List Nat → List (Nat × Nat)
  | _, [] => []
  | n, x :: xs => (n, x) :: withIdx (n + 1) xs

/-- The reorder endpoint's statement list: one UPDATE ... WHERE id = ? AND
page_id = ? per (index, cellId) pair, wrapped in a single transaction
(src/backend/routes/cells.js lines 202-213). -/
def reorderBatches (pid : Nat) (cellIds : List Nat) : List Batch :=
  [Batch.tx ((withIdx 0 cellIds).map (fun p => .updCellOrder p.2 pid (Int.ofNat p.1)))]

/-- PUT .../cells/reorder (src/backend/routes/cells.js lines 192-224). -/
def reorderCells (db : Db) (pid : Nat) (cellIds : List Nat) : Db :=
  runBatches db (reorderBatches pid cellIds)

/-- A fresh project database as initializeSchema leaves it: the synthetic
Main Page row with id 0 and no cells (src/backend/db.js lines 50-72). -/
def initProjectDb : Db := ⟨[⟨0, "Main Page", none, "Main Page"⟩], [], 1, 1⟩

/-! ## Reorder characterization -/

/-- Per-cell effect of the reorder statement list: fold the (index, cellId)
pairs over one cell row. -/
def applyOrderPairs (pid : Nat) (pairs : List (Nat × Nat)) (c : Cell) : Cell :=
  pairs.foldl
    (fun c p => if c.id = p.2 ∧ c.page_id = pid then { c with order_index := Int.ofNat p.1 } else c) c

theorem applyOrderPairs_nil (pid : Nat) (c : Cell) : applyOrderPairs pid [] c = c := rfl

theorem applyOrderPairs_cons (pid : Nat) (p : Nat × Nat) (rest : List (Nat × Nat)) (c : Cell) :
    applyOrderPairs pid (p :: rest) c =
      applyOrderPairs pid rest
        (if c.id = p.2 ∧ c.page_id = pid then { c with order_index := Int.ofNat p.1 } else c) := rfl

theorem foldl_map_cells (pid : Nat) :
    ∀ (pairs : List (Nat × Nat)) (cs : List Cell),
      pairs.foldl
        (fun cs p => cs.map (fun c =>
          if c.id = p.2 ∧ c.page_id = pid then { c with order_index := Int.ofNat p.1 } else c)) cs
      = cs.map (applyOrderPairs pid pairs)
  | [], cs => by
      rw [show applyOrderPairs pid [] = id from rfl, List.map_id]
      rfl
  | p :: rest, cs => by
      rw [List.foldl_cons, foldl_map_cells pid rest, List.map_map]
      rfl

theorem reorderCells_eq_map (db : Db) (pid : Nat) (ids : List Nat) :
    reorderCells db pid ids =
      { db with cells := db.cells.map (applyOrderPairs pid (withIdx 0 ids)) } := by
  show applyBatch db (Batch.tx ((withIdx 0 ids).map (fun p => .updCellOrder p.2 pid (Int.ofNat p.1))))
      = _
  show ((withIdx 0 ids).map (fun p =>
      StoreOp.updCellOrder p.2 pid (Int.ofNat p.1))).foldl applyStoreOp db = _
  rw [List.foldl_map]
  induction (withIdx 0 ids) generalizing db with
  | nil =>
      rw [show applyOrderPairs pid [] = id from rfl, List.map_id]
      rfl
  | cons p rest ih =>
      rw [List.foldl_cons, ih]
      show _ = { db with cells := db.cells.map (applyOrderPairs pid (p :: rest)) }
      simp only [applyStoreOp, List.map_map]
      rfl

theorem applyOrderPairs_id (pid : Nat) (pairs : List (Nat × Nat)) (c : Cell) :
    (applyOrderPairs pid pairs c).id = c.id ∧
    (applyOrderPairs pid pairs c).page_id = c.page_id ∧
    (applyOrderPairs pid pairs c).ctype = c.ctype ∧
    (applyOrderPairs pid pairs c).content = c.content := by
  induction pairs generalizing c with
  | nil => exact ⟨rfl, rfl, rfl, rfl⟩
  | cons p rest ih =>
      rw [applyOrderPairs_cons]
      by_cases h : c.id = p.2 ∧ c.page_id = pid
      · simp only [if_pos h]
        exact (ih _)
      · simp only [if_neg h]
        exact ih c

theorem applyOrderPairs_skip (pid : Nat) (pairs : List (Nat × Nat)) (c : Cell)
    (h : ∀ p ∈ pairs, ¬ (c.id = p.2 ∧ c.page_id = pid)) :
    applyOrderPairs pid pairs c = c := by
  induction pairs with
  | nil => rfl
  | cons p rest ih =>
      rw [applyOrderPairs_cons, if_neg (h p (List.mem_cons_self p rest))]
      exact ih (fun q hq => h q (List.mem_cons_of_mem p hq))

theorem withIdx_mem_snd : ∀ (n : Nat) (ids : List Nat) (p : Nat × Nat),
    p ∈ withIdx n ids → p.2 ∈ ids
  | n, x :: xs, p, h => by
      rcases List.mem_cons.mp h with h | h
      · subst h; exact List.mem_cons_self x xs
      · exact List.mem_cons_of_mem x (withIdx_mem_snd (n + 1) xs p h)

theorem applyOrderPairs_hit (pid : Nat) (c : Cell) :
    ∀ (n : Nat) (ids : List Nat) (k : Nat) (hk : k < ids.length), ids.Nodup →
      ids.get ⟨k, hk⟩ = c.id → c.page_id = pid →
      applyOrderPairs pid (withIdx n ids) c = { c with order_index := Int.ofNat (n + k) }
  | n, x :: xs, 0, hk, hnd, hget, hpg => by
      have hx : c.id = x := by simpa using hget.symm
      rw [withIdx, applyOrderPairs_cons, if_pos ⟨hx, hpg⟩]
      have hnotin : x ∉ xs := (List.nodup_cons.mp hnd).1
      have hskip : applyOrderPairs pid (withIdx (n + 1) xs) { c with order_index := Int.ofNat n }
          = { c with order_index := Int.ofNat n } := by
        refine applyOrderPairs_skip pid _ _ (fun p hp hcontra => ?_)
        have hmem : p.2 ∈ xs := withIdx_mem_snd (n + 1) xs p hp
        have hid : c.id = p.2 := hcontra.1
        exact hnotin (by rw [← hx, hid]; exact hmem)
      rw [hskip, Nat.add_zero]
  | n, x :: xs, k + 1, hk, hnd, hget, hpg => by
      have hkxs : k < xs.length := Nat.lt_of_succ_lt_succ hk
      have hmem : c.id ∈ xs := by
        have hg : xs.get ⟨k, hkxs⟩ = c.id := hget
        exact hg ▸ xs.get_mem k hkxs
      have hx : ¬ (c.id = x ∧ c.page_id = pid) := by
        rintro ⟨h1, _⟩
        exact (List.nodup_cons.mp hnd).1 (h1 ▸ hmem)
      rw [withIdx, applyOrderPairs_cons, if_neg hx]
      have := applyOrderPairs_hit pid c (n + 1) xs k hkxs (List.nodup_cons.mp hnd).2 hget hpg
      rw [this, Nat.succ_add_eq_add_succ]

/-- C5: after a call reorderCells(pageId, ids) with duplicate-free ids, every
cell of pageId listed at position k in ids has order_index k (so the page's
cells carry order_index 0..len(ids)-1 in the order given by ids when ids
enumerates them), every cell not listed keeps its previous state, and a
listed id whose cell belongs to a different page is silently ignored (that
cell is unchanged and no error is raised); no cell row is added or removed
and pages are untouched. -/
theorem claim5_reorder (db : Db) (pid : Nat) (ids : List Nat) (hnd : ids.Nodup) :
    (∀ (k : Nat) (hk : k < ids.length), ∀ c ∈ db.cells,
        c.id = ids.get ⟨k, hk⟩ → c.page_id = pid →
        { c with order_index := Int.ofNat k } ∈ (reorderCells db pid ids).cells) ∧
    (∀ c ∈ db.cells, c.id ∉ ids → c ∈ (reorderCells db pid ids).cells) ∧
    (∀ c ∈ db.cells, c.page_id ≠ pid → c ∈ (reorderCells db pid ids).cells) ∧
    (reorderCells db pid ids).cells.length = db.cells.length ∧
    (reorderCells db pid ids).pages = db.pages := by
  rw [reorderCells_eq_map]
  refine ⟨?_, ?_, ?_, by simp, rfl⟩
  · intro k hk c hc hid hpg
    have hhit := applyOrderPairs_hit pid c 0 ids k hk hnd hid.symm hpg
    rw [Nat.zero_add] at hhit
    rw [← hhit]
    exact List.mem_map_of_mem _ hc
  · intro c hc hnotin
    have hskip : applyOrderPairs pid (withIdx 0 ids) c = c :=
      applyOrderPairs_skip pid _ c (fun p hp h => hnotin (h.1 ▸ withIdx_mem_snd 0 ids p hp))
    rw [← hskip]
    exact List.mem_map_of_mem _ hc
  · intro c hc hne
    have hskip : applyOrderPairs pid (withIdx 0 ids) c = c :=
      applyOrderPairs_skip pid _ c (fun p hp h => hne h.2)
    rw [← hskip]
    exact List.mem_map_of_mem _ hc

/-- Concrete state for the claim5 witness: Main Page with three cells in
orders 0,1,2 plus one cell of an unrelated page. -/
def claim5Db : Db :=
  ⟨[⟨0, "Main Page", none, "Main Page"⟩],
   [⟨1, 0, "text", "A", 0⟩, ⟨2, 0, "text", "B", 1⟩, ⟨3, 0, "text", "C", 2⟩,
    ⟨4, 7, "text", "X", 5⟩], 1, 5⟩

/-- Witness for claim5_reorder: the spec scenario reorder([C,A,B]) gives C
order 0 while the foreign-page cell is untouched. -/
theorem claim5_witness :
    (⟨3, 0, "text", "C", Int.ofNat 0⟩ : Cell) ∈ (reorderCells claim5Db 0 [3, 1, 2]).cells ∧
    (⟨4, 7, "text", "X", 5⟩ : Cell) ∈ (reorderCells claim5Db 0 [3, 1, 2]).cells := by
  have h := claim5_reorder claim5Db 0 [3, 1, 2] (by decide)
  refine ⟨?_, h.2.2.1 ⟨4, 7, "text", "X", 5⟩ (by decide) (by decide)⟩
  exact h.1 0 (by decide) ⟨3, 0, "text", "C", 2⟩ (by decide) rfl rfl

/-- Concrete state for claim 6: one page whose single cell has the maximal
order_index 0. -/
def claim6Db : Db := ⟨[⟨0, "Main Page", none, "Main Page"⟩], [⟨1, 0, "text", "", 0⟩], 1, 2⟩

/-- C6: createCell with orderIndex omitted computes (max || -1) + 1, and the
JavaScript expression treats a maximum of 0 as falsy, so on a page whose
maximal order_index is 0 the new cell receives order_index 0 again - equal
to, not strictly greater than, the existing maximum, contradicting the
append-after-maximum claim (src/backend/routes/cells.js line 101). -/
theorem claim6_zero_max_collision :
    maxOrderIndex claim6Db.cells 0 = some 0 ∧
    createCell claim6Db 0 "text" none none =
      .ok (⟨2, 0, "text", "", 0⟩,
        { claim6Db with cells := claim6Db.cells ++ [⟨2, 0, "text", "", 0⟩], nextCellId := 3 }) := by
  exact ⟨by decide, rfl⟩

/-- C7: the route-level validation accepts the type ranking (and table), but
the cells table CHECK constraint of src/backend/db.js (and even the migrated
constraint of src/unnamed/part_008) rejects ranking, so createCell with type
ranking always fails at the INSERT with a storage error and stores no cell,
while a type in the schema's list succeeds. -/
theorem claim7_ranking_rejected_by_schema :
    routeCellTypes.contains "ranking" = true ∧
    schemaCellTypes.contains "ranking" = false ∧
    migratedSchemaCellTypes.contains "ranking" = false ∧
    createCell initProjectDb 0 "ranking" (some "x") none = .error .storageCheck ∧
    createCell initProjectDb 0 "table" (some "x") none = .error .storageCheck ∧
    createCell initProjectDb 0 "text" none none =
      .ok (⟨1, 0, "text", "", 0⟩,
        { initProjectDb with cells := [⟨1, 0, "text", "", 0⟩], nextCellId := 2 }) := by
  exact ⟨by decide, by decide, by decide, rfl, rfl, rfl⟩

/-! ## Page hierarchy: buildPath and the pages router (src/unnamed/part_011) -/

/-- JavaScript Array.prototype.join with a separator, structurally. -/
def joinSep (sep : String) : List String → String
  | [] => ""
  | [x] => x
  | x :: y :: rest => x ++ sep ++ joinSep sep (y :: rest)

/-- ASCII whitespace in the sense of the JavaScript \s class and trim. -/
def jsIsWs (c : Char) : Bool :=
  c = ' ' ∨ c = '\t' ∨ c = '\n' ∨ c = '\r' ∨ c = '\x0b' ∨ c = '\x0c'

/-- JavaScript String.prototype.trim modelled structurally over characters. -/
def jsTrim (s : String) : String :=
  String.mk ((((s.data.dropWhile jsIsWs).reverse).dropWhile jsIsWs).reverse)

/-- JavaScript str.split(char) for a single-character separator: adjacent
separators produce empty fragments and the result is never empty. -/
def splitOnSpace : List Char → List (List Char)
  | [] => [[]]
  | c :: rest =>
      match splitOnSpace rest with
      | [] => [[c]]
      | g :: gs => if c = ' ' then [] :: g :: gs else (c :: g) :: gs

def jsSplitSpace (s : String) : List String := (splitOnSpace s.data).map String.mk

/-- JavaScript toLowerCase restricted to ASCII. -/
def lowerStr (s : String) : String := String.mk (s.data.map Char.toLower)

/-- JavaScript toUpperCase restricted to ASCII. -/
def upperStr (s : String) : String := String.mk (s.data.map Char.toUpper)

/-- The camelCase helper of the pages router and the Cell component: split on
single spaces, uppercase each word's first character and lowercase the rest
(src/unnamed/part_011 lines 151-161, src/frontend/src/components/Cell.jsx
lines 77-87; both branches of the index test are identical). -/
def camelWord (w : String) : String :=
  match w.data with
  | [] => ""
  | c :: cs => String.mk (c.toUpper :: cs.map Char.toLower)

def toCamelCase (s : String) : String :=
  joinSep " " ((jsSplitSpace s).map camelWord)

/-- The while (currentId) walk of buildPath (src/unnamed/part_011 lines
26-38), collecting titles root-first. The loop treats both null and the
sentinel id 0 as falsy and stops on a missing row. Fuel bounds the loop,
which in JavaScript would diverge on a cyclic parent chain; every use below
passes fuel exceeding the page count, which is exact on rooted states. -/
def buildParts : Nat → List Page → Option Nat → List String
  | 0, _, _ => []
  | _, _, none => []
  | fuel + 1, ps, some i =>
      if i = 0 then []
      else match findPage ps i with
        | none => []
        | some p => buildParts fuel ps p.parent_id ++ [p.title]

def buildPath (fuel : Nat) (ps : List Page) (i : Option Nat) : String :=
  joinSep " > " (buildParts fuel ps i)

/-- Chain of ancestor rows of a parent link, root-first, following parent
links until null (or a dangling link, where buildPath's walk also stops).
Unlike the router's walk this specification-side chain does not stop at the
sentinel id 0, and it returns none when the fuel runs out, which on fuel
ps.length happens exactly on a cyclic chain. -/
def chainRows : Nat → List Page → Option Nat → Option (List Page)
  | _, _, none => some []
  | 0, _, some _ => none
  | fuel + 1, ps, some i =>
      match findPage ps i with
      | none => some []
      | some p => (chainRows fuel ps p.parent_id).map (· ++ [p])

/-- The breadcrumb the specification promises for a page: the titles of the
rows on the chain from its forest root down to the page itself, joined by
the separator. -/
def specPath (ps : List Page) (p : Page) : String :=
  joinSep " > "
    ((((chainRows ps.length ps p.parent_id).getD []).map Page.title) ++ [p.title])

/-- Proper ancestor ids of the page with id i (ids on the chain from the
forest root down to its parent). The page with id anc is an ancestor of the
page with id i exactly when anc appears here; descendant is the converse. -/
def strictAncestorIds (ps : List Page) (i : Nat) : List Nat :=
  match findPage ps i with
  | none => []
  | some p => ((chainRows ps.length ps p.parent_id).getD []).map Page.id

/-- The circular-move walk of the PUT pages route (src/unnamed/part_011
lines 216-224): walk ancestors of the requested parent, rejecting when some
visited row's parent is the moved page. Returns some true to reject,
some false to pass, and none when the JavaScript while loop would diverge
(cyclic chain beyond the fuel). The walk stops at null, at the falsy id 0
and at missing rows. -/
def cycleWalk : Nat → List Page → Option Nat → Nat → Option Bool
  | _, _, none, _ => some false
  | 0, _, some c, _ => if c = 0 then some false else none
  | fuel + 1, ps, some c, pid =>
      if c = 0 then some false
      else match findPage ps c with
        | none => some false
        | some row =>
            if row.parent_id = some pid then some true
            else cycleWalk fuel ps row.parent_id pid

inductive PageErr where
  | validation
  | notFound
  | fkViolation
deriving Repr, DecidableEq

/-- POST pages (src/unnamed/part_011 lines 134-185): reject a blank title,
compute the path from the parent chain (the parentId || null coercion makes
0 behave like null throughout), insert the page, then seed a camelCased
summary header cell and one empty text cell. A parent id that references no
row violates the parent_id foreign key, the INSERT throws, and nothing is
stored. -/
def createPage (db : Db) (title : String) (parentId : Option Nat) :
    Except PageErr (Page × Db) :=
  if jsTrim title = "" then .error .validation
  else
    let pid' : Option Nat := if truthy parentId then parentId else none
    let fkOk : Bool := match pid' with
      | none => true
      | some k => (findPage db.pages k).isSome
    if ¬ fkOk then .error .fkViolation
    else
      let path := buildPath (db.pages.length + 1) db.pages parentId ++
        (if truthy parentId then " > " else "") ++ title
      let pg : Page := ⟨db.nextPageId, title, pid', path⟩
      let c1 : Cell := ⟨db.nextCellId, pg.id, "header", toCamelCase title ++ " Summary", 0⟩
      let c2 : Cell := ⟨db.nextCellId + 1, pg.id, "text", "", 1⟩
      .ok (pg, ⟨db.pages ++ [pg], db.cells ++ [c1, c2], db.nextPageId + 1, db.nextCellId + 2⟩)

/-- Statement list of updateDescendantPaths (src/unnamed/part_011 lines
234-241): for each child of pid emit an UPDATE of its path computed from
buildPath of the (already updated) parent, then recurse into the child. The
cascade only ever writes path fields and buildPath never reads path fields,
so emitting against the structure-updated table is exact. The second
component flags stack exhaustion, which for the JavaScript recursion is a
thrown RangeError after the already-issued non-transactional updates have
committed; it only happens on cyclic states. -/
def cascadeKids (ps : List Page) (pid : Nat) (rec : Nat → List StoreOp × Bool) :
    List Page → List StoreOp × Bool
  | [] => ([], false)
  | c :: rest =>
      let childPath := buildPath (ps.length + 1) ps (some pid) ++ " > " ++ c.title
      let sub := rec c.id
      if sub.2 then (StoreOp.updPath c.id childPath :: sub.1, true)
      else
        let rest' := cascadeKids ps pid rec rest
        (StoreOp.updPath c.id childPath :: sub.1 ++ rest'.1, rest'.2)

/-- Recursion of updateDescendantPaths with a stack-depth budget: calling at
exhausted depth is the JavaScript stack overflow. -/
def cascadeRun (ps : List Page) : Nat → Nat → List StoreOp × Bool
  | 0, _ => ([], true)
  | fuel + 1, pid => cascadeKids ps pid (cascadeRun ps fuel) (childrenOf ps pid)

inductive PutResp where
  | ok
  | notFound
  | badTitle
  | cycleErr
  | fkError
  | hang
  | overflow
deriving Repr, DecidableEq

/-- Statement plan of the PUT pages route (src/unnamed/part_011 lines
190-254). Validation and the circular-move check run before any statement;
on success the plan is the bare page UPDATE followed by the bare cascade
updates (none of them inside a transaction). The response hang models the
JavaScript while loop of the cycle check diverging, overflow models the
cascade recursion exhausting the stack; both are impossible on rooted
states. The raw body parentId is modelled with the empty string already
folded to null, which the checks cannot distinguish. -/
def putPagePlan (db : Db) (pageId : Nat) (titleArg : Option String)
    (parentArg : Option (Option Nat)) : PutResp × List StoreOp :=
  match findPage db.pages pageId with
  | none => (.notFound, [])
  | some page =>
      let newTitle := titleArg.getD page.title
      let newParent : Option Nat := match parentArg with
        | none => page.parent_id
        | some v => v
      if jsTrim newTitle = "" then (.badTitle, [])
      else
        let check : Option Bool :=
          match parentArg with
          | none => some false
          | some v =>
              if v = page.parent_id then some false
              else if v = some pageId then some true
              else cycleWalk (db.pages.length + 1) db.pages v pageId
        match check with
        | none => (.hang, [])
        | some true => (.cycleErr, [])
        | some false =>
            let fkOk : Bool := match newParent with
              | none => true
              | some k => (findPage db.pages k).isSome
            if ¬ fkOk then (.fkError, [])
            else
              let newPath := buildPath (db.pages.length + 1) db.pages newParent ++
                (if truthy newParent then " > " else "") ++ newTitle
              let mainOp : StoreOp := .updPage pageId newTitle newParent newPath
              if newParent ≠ page.parent_id ∨ newTitle ≠ page.title then
                let db1 := applyStoreOp db mainOp
                let casc := cascadeRun db1.pages (db1.pages.length + 1) pageId
                ((if casc.2 then .overflow else .ok), mainOp :: casc.1)
              else (.ok, [mainOp])

/-- The PUT route issues its statements bare: none of them runs inside a
better-sqlite3 transaction (src/unnamed/part_011 lines 229-245). -/
def putPageBatches (db : Db) (pageId : Nat) (titleArg : Option String)
    (parentArg : Option (Option Nat)) : List Batch :=
  ((putPagePlan db pageId titleArg parentArg).2).map Batch.single

/-- PUT pages: run the plan's statements in order. -/
def putPage (db : Db) (pageId : Nat) (titleArg : Option String)
    (parentArg : Option (Option Nat)) : PutResp × Db :=
  ((putPagePlan db pageId titleArg parentArg).1,
    runBatches db (putPageBatches db pageId titleArg parentArg))

/-- One round of SQLite's ON DELETE CASCADE on the pages self reference:
rows whose parent is already in the deleted set join it. -/
def parentInSet (p : Page) (s : List Nat) : Bool :=
  match p.parent_id with
  | some j => s.contains j
  | none => false

/-- One cascade round: rows whose parent is already condemned join the set. -/
def growRemoved (ps : List Page) (s : List Nat) : List Nat :=
  s ++ (ps.filter (fun p => parentInSet p s && ! s.contains p.id)).map Page.id

def removedIdsIter : Nat → List Page → List Nat → List Nat
  | 0, _, s => s
  | n + 1, ps, s => removedIdsIter n ps (growRemoved ps s)

/-- The page ids removed by DELETE FROM pages WHERE id = pid under the
ON DELETE CASCADE foreign keys: the least set containing pid and closed
under the child relation, reached after at most pages.length rounds. -/
def removedIds (ps : List Page) (pid : Nat) : List Nat :=
  removedIdsIter ps.length ps [pid]

/-- DELETE pages route (src/unnamed/part_011 lines 259-274): 404 when the
row does not exist (changes = 0), otherwise the cascade removes the page
subtree and, through the cells.page_id foreign key, every cell of a removed
page. -/
def deletePage (db : Db) (pid : Nat) : Except PageErr Db :=
  if (findPage db.pages pid).isNone then .error .notFound
  else
    let rem := removedIds db.pages pid
    .ok { db with pages := db.pages.filter (fun p => ! rem.contains p.id),
                  cells := db.cells.filter (fun c => ! rem.contains c.page_id) }

/-! ## Operation sequences over a project -/

/-- The page operations the path-invariant claim quantifies over: createPage
and the PUT route (which is both renamePage and movePage). -/
inductive WikiOp where
  | create (title : String) (parentId : Option Nat)
  | put (pageId : Nat) (title : Option String) (parentId : Option (Option Nat))
deriving Repr, DecidableEq

/-- Effect of one operation on the database; a rejected operation leaves the
database unchanged. -/
def stepOp (db : Db) : WikiOp → Db
  | .create t par =>
      match createPage db t par with
      | .ok r => r.2
      | .error _ => db
  | .put pid t par => (putPage db pid t par).2

def runOps (ops : List WikiOp) : Db := ops.foldl stepOp initProjectDb

/-- Restriction of the amended path invariant: a move may name any parent
except the synthetic main page 0 (createPage already coerces 0 to null). -/
def opAllowed : WikiOp → Prop
  | .create _ _ => True
  | .put _ _ par => par ≠ some (some 0)

/-! ## Claim 9: batch atomicity -/

theorem singles_mem {op : StoreOp} {ops : List StoreOp} {b : Batch}
    (hb : b ∈ Batch.single op :: ops.map Batch.single) : b.isSingle = true := by
  rcases List.mem_cons.mp hb with rfl | h
  · rfl
  · rcases List.mem_map.mp h with ⟨o, _, rfl⟩
    rfl

/-- C9, amended: the reorder endpoint runs its updates inside one
transaction, so an interrupted run observes either the initial or the final
state (all or nothing); the page-update-and-path-cascade plan of the PUT
pages route, by contrast, consists exclusively of bare non-transactional
statements, so an interruption can strand intermediate states. -/
theorem claim9_amended :
    (∀ (db : Db) (pid : Nat) (ids : List Nat) (i : Nat),
        runInterrupted db (reorderBatches pid ids) i = db ∨
        runInterrupted db (reorderBatches pid ids) i = reorderCells db pid ids) ∧
    (∀ (db : Db) (pid : Nat) (t : Option String) (par : Option (Option Nat)),
        ∀ b ∈ putPageBatches db pid t par, b.isSingle = true) := by
  constructor
  · intro db pid ids i
    cases i with
    | zero => left; rfl
    | succ n =>
        right
        simp [runInterrupted, runBatches, reorderBatches, reorderCells]
  · intro db pid t par b hb
    rcases List.mem_map.mp hb with ⟨o, _, rfl⟩
    rfl

/-- Concrete state for the claim 9 counterexample: page B under page A. -/
def claim9Db : Db :=
  ⟨[⟨1, "A", none, "A"⟩, ⟨2, "B", some 1, "A > B"⟩], [], 3, 1⟩

/-- C9, counterexample: renaming page A issues the page update and the
descendant path update as two bare statements; failing between them leaves
the renamed page with its new path while the child keeps the stale one,
a state equal to neither the initial nor the final one - so the cascade is
not all-or-nothing as claimed. -/
theorem claim9_counterexample :
    runInterrupted claim9Db (putPageBatches claim9Db 1 (some "C") none) 1 ≠ claim9Db ∧
    runInterrupted claim9Db (putPageBatches claim9Db 1 (some "C") none) 1 ≠
      runBatches claim9Db (putPageBatches claim9Db 1 (some "C") none) ∧
    (findPage (runInterrupted claim9Db (putPageBatches claim9Db 1 (some "C") none) 1).pages 1).map
      Page.path = some "C" ∧
    (findPage (runInterrupted claim9Db (putPageBatches claim9Db 1 (some "C") none) 1).pages 2).map
      Page.path = some "A > B" ∧
    (findPage (runBatches claim9Db (putPageBatches claim9Db 1 (some "C") none)).pages 2).map
      Page.path = some "C > B" := by
  refine ⟨by decide, by decide, by decide, by decide, by decide⟩

/-- Witness instantiating claim9_amended at concrete inputs. -/
theorem claim9_witness :
    (runInterrupted claim9Db (reorderBatches 0 [1]) 0 = claim9Db ∨
      runInterrupted claim9Db (reorderBatches 0 [1]) 0 = reorderCells claim9Db 0 [1]) ∧
    Batch.isSingle (Batch.single (StoreOp.updPage 1 "C" none "C")) = true := by
  refine ⟨claim9_amended.1 claim9Db 0 [1] 0, ?_⟩
  exact claim9_amended.2 claim9Db 1 (some "C") none _ (by decide)

/-! ## Claim 10: the sentinel Main Page row, listing and suggestions -/

def insertByTitle (p : Page) : List Page → List Page
  | [] => [p]
  | q :: qs => if p.title ≤ q.title then p :: q :: qs else q :: insertByTitle p qs

def sortByTitle : List Page → List Page
  | [] => []
  | p :: ps => insertByTitle p (sortByTitle ps)

theorem mem_insertByTitle {p q : Page} {l : List Page} :
    q ∈ insertByTitle p l ↔ q = p ∨ q ∈ l := by
  induction l with
  | nil => simp [insertByTitle]
  | cons r rs ih =>
      by_cases h : p.title ≤ r.title
      · simp [insertByTitle, h]
      · simp only [insertByTitle, if_neg h, List.mem_cons, ih]
        tauto

theorem mem_sortByTitle {q : Page} {l : List Page} : q ∈ sortByTitle l ↔ q ∈ l := by
  induction l with
  | nil => simp [sortByTitle]
  | cons r rs ih => simp [sortByTitle, mem_insertByTitle, ih]

/-- GET pages (src/unnamed/part_011 line 45): SELECT * FROM pages WHERE
id != 0 ORDER BY title. -/
def listPages (db : Db) : List Page :=
  sortByTitle (db.pages.filter (fun p => p.id ≠ 0))

/-- The currentPageId || -1 of the suggest-links route (src/unnamed/part_010
line 294): a missing id, and also the falsy id 0, become -1. -/
def suggestExclId (currentPageId : Option Nat) : Int :=
  match currentPageId with
  | some c => if c = 0 then -1 else (c : Int)
  | none => -1

/-- Candidate set of POST suggest-links: SELECT * FROM pages WHERE id != ?
with the parameter above - the sentinel row 0 is never excluded. -/
def suggestCandidates (db : Db) (currentPageId : Option Nat) : List Page :=
  db.pages.filter (fun p => (p.id : Int) ≠ suggestExclId currentPageId)

/-- Modelled from the spec: the repository delegates fuzzy ranking to the
external fuse.js library, which the specification treats as a black box that
ranks candidates by similarity (lower score better, threshold-filtered,
exact case-insensitive title equality being a perfect match). We model the
scorer by its contract: a case-insensitively equal title scores 0 and is
within the threshold; other titles are treated as beyond it. -/
def fuseScore (title query : String) : Option Nat :=
  if lowerStr title = lowerStr query then some 0 else none

/-- POST suggest-links (src/unnamed/part_010 lines 286-314): empty text
yields no suggestions; otherwise the candidates are scored against the
trimmed text and the ten best are returned. -/
def suggestLinks (db : Db) (text : String) (currentPageId : Option Nat) :
    List (Page × Nat) :=
  if jsTrim text = "" then []
  else
    ((suggestCandidates db currentPageId).filterMap
      (fun p => (fuseScore p.title (jsTrim text)).map (fun s => (p, s)))).take 10

/-- Concrete state for the claim 10 witness. -/
def claim10Db : Db :=
  ⟨[⟨0, "Main Page", none, "Main Page"⟩, ⟨1, "Alpha", none, "Alpha"⟩], [], 2, 1⟩

/-- C10: every fresh project database holds the synthetic page row with id 0
and title Main Page; listPages filters id != 0 and so never returns it; but
suggest-links draws candidates from all pages excluding only the (truthy)
current page id, so the sentinel row is always a candidate and, for
instance, querying the text Main Page returns the id 0 row among the ranked
suggestions. -/
theorem claim10_sentinel_row :
    (⟨0, "Main Page", none, "Main Page"⟩ : Page) ∈ initProjectDb.pages ∧
    (∀ (db : Db), ∀ p ∈ listPages db, p.id ≠ 0) ∧
    (∀ (db : Db) (cur : Option Nat), ∀ p ∈ db.pages, p.id = 0 →
        p ∈ suggestCandidates db cur) ∧
    (suggestLinks claim10Db "Main Page" (some 1)).map (fun r => r.1.id) = [0] := by
  refine ⟨by decide, ?_, ?_, by decide⟩
  · intro db p hp
    have hp' := List.of_mem_filter (mem_sortByTitle.mp hp)
    simpa using hp'
  · intro db cur p hp hp0
    refine List.mem_filter.mpr ⟨hp, ?_⟩
    have : (p.id : Int) = 0 := by exact_mod_cast hp0
    rw [this]
    cases cur with
    | none => decide
    | some c =>
        by_cases hc : c = 0
        · simp [suggestExclId, hc]
        · simp only [suggestExclId, if_neg hc]
          simpa using fun h => hc (by exact_mod_cast h.symm)

/-- Witness instantiating claim10_sentinel_row at concrete inputs. -/
theorem claim10_witness :
    (⟨1, "Alpha", none, "Alpha"⟩ : Page).id ≠ 0 ∧
    (⟨0, "Main Page", none, "Main Page"⟩ : Page) ∈ suggestCandidates claim10Db (some 1) := by
  constructor
  · exact claim10_sentinel_row.2.1 claim10Db ⟨1, "Alpha", none, "Alpha"⟩ (by decide)
  · exact claim10_sentinel_row.2.2.1 claim10Db (some 1) ⟨0, "Main Page", none, "Main Page"⟩
      (by decide) rfl

/-! ## Ancestor chains -/

/-- Grounded ancestor chain of a parent link: the rows from the forest root
down to the link's target, each row found by id, each subsequent row's
parent link naming the previous row, the topmost row having no parent. -/
inductive Chain (ps : List Page) : Option Nat → List Page → Prop
  | nil : Chain ps none []
  | cons {i : Nat} {p : Page} {l : List Page} :
      findPage ps i = some p → Chain ps p.parent_id l → Chain ps (some i) (l ++ [p])

theorem findPage_mem {ps : List Page} {i : Nat} {p : Page} (h : findPage ps i = some p) :
    p ∈ ps :=
  List.mem_of_find?_eq_some h

theorem findPage_id {ps : List Page} {i : Nat} {p : Page} (h : findPage ps i = some p) :
    p.id = i := by
  have := List.find?_some h
  simpa using this

theorem findPage_of_mem {ps : List Page} (hnd : (ps.map Page.id).Nodup) {p : Page}
    (hp : p ∈ ps) : findPage ps p.id = some p := by
  induction ps with
  | nil => cases hp
  | cons q rest ih =>
      rcases List.mem_cons.mp hp with rfl | hmem
      · simp [findPage]
      · have hnd2 : q.id ∉ rest.map Page.id ∧ (rest.map Page.id).Nodup := by
          rw [List.map_cons, List.nodup_cons] at hnd
          exact hnd
        have h2 : p.id ∈ rest.map Page.id := List.mem_map_of_mem _ hmem
        have hne : ¬ (q.id = p.id) := fun hc => hnd2.1 (hc ▸ h2)
        have htail : (rest.map Page.id).Nodup := hnd2.2
        show List.find? _ (q :: rest) = some p
        rw [List.find?_cons_of_neg _ (by simpa using hne)]
        exact ih htail hmem

theorem chain_unique {ps : List Page} {o : Option Nat} {l1 l2 : List Page}
    (h1 : Chain ps o l1) (h2 : Chain ps o l2) : l1 = l2 := by
  induction h1 generalizing l2 with
  | nil => cases h2; rfl
  | cons hf hc ih =>
      cases h2 with
      | cons hf2 hc2 =>
          rw [hf] at hf2
          injection hf2 with hpp
          subst hpp
          rw [ih hc2]

theorem chain_subset {ps : List Page} {o : Option Nat} {l : List Page}
    (h : Chain ps o l) : ∀ r ∈ l, r ∈ ps := by
  induction h with
  | nil => intro r hr; cases hr
  | cons hf _ ih =>
      intro r hr
      rcases List.mem_append.mp hr with hr | hr
      · exact ih r hr
      · rcases List.mem_singleton.mp hr with rfl
        exact findPage_mem hf

theorem chain_mem_chain {ps : List Page} {o : Option Nat} {l : List Page}
    (h : Chain ps o l) : ∀ {r : Page}, r ∈ l →
    ∃ l1 l2, l = l1 ++ [r] ++ l2 ∧ Chain ps (some r.id) (l1 ++ [r]) := by
  induction h with
  | nil => intro r hr; cases hr
  | cons hf hc ih =>
      intro r hr
      rename_i i p l
      rcases List.mem_append.mp hr with hr | hr
      · rcases ih hr with ⟨l1, l2, rfl, hch⟩
        exact ⟨l1, l2 ++ [p], by simp, hch⟩
      · rcases List.mem_singleton.mp hr with rfl
        refine ⟨l, [], by simp, ?_⟩
        rw [findPage_id hf]
        exact Chain.cons hf hc

theorem chain_nodup {ps : List Page} {o : Option Nat} {l : List Page}
    (h : Chain ps o l) : l.Nodup := by
  induction h with
  | nil => simp
  | cons hf hc ih =>
      rename_i i p l
      have hnot : p ∉ l := by
        intro hp
        rcases chain_mem_chain hc hp with ⟨l1, l2, hl, hch⟩
        have hfull : Chain ps (some p.id) (l ++ [p]) := by
          rw [findPage_id hf]
          exact Chain.cons hf hc
        have := chain_unique hch hfull
        have hlen : (l1 ++ [p]).length = (l ++ [p]).length := by rw [this]
        have hlen2 : l.length = l1.length + 1 + l2.length := by
          rw [hl]; simp [Nat.add_assoc, Nat.add_comm, Nat.add_left_comm]
        simp only [List.length_append, List.length_singleton] at hlen
        omega
      simp [List.nodup_append, ih, hnot]

theorem chain_length_le {ps : List Page} {o : Option Nat} {l : List Page}
    (h : Chain ps o l) : l.length ≤ ps.length := by
  classical
  have hsub : l ⊆ ps := fun r hr => chain_subset h r hr
  have hnd : l.Nodup := chain_nodup h
  calc l.length = l.toFinset.card := (List.toFinset_card_of_nodup hnd).symm
    _ ≤ ps.toFinset.card :=
        Finset.card_le_card (fun x hx => List.mem_toFinset.mpr (hsub (List.mem_toFinset.mp hx)))
    _ ≤ ps.length := List.toFinset_card_le ps

theorem chain_frame {ps qs : List Page} {o : Option Nat} {l : List Page}
    (h : Chain ps o l) (hagree : ∀ r ∈ l, findPage qs r.id = some r) : Chain qs o l := by
  induction h with
  | nil => exact Chain.nil
  | cons hf hc ih =>
      rename_i i p l
      have hp : findPage qs p.id = some p :=
        hagree p (List.mem_append.mpr (Or.inr (List.mem_singleton.mpr rfl)))
      have hi : findPage qs i = some p := by
        rw [← findPage_id hf]; exact hp
      exact Chain.cons hi (ih (fun r hr => hagree r (List.mem_append.mpr (Or.inl hr))))

theorem findPage_map {ps : List Page} {f : Page → Page} (hid : ∀ p, (f p).id = p.id)
    (i : Nat) : findPage (ps.map f) i = (findPage ps i).map f := by
  induction ps with
  | nil => rfl
  | cons q rest ih =>
      by_cases hq : q.id = i
      · show List.find? _ (f q :: rest.map f) = _
        rw [List.find?_cons_of_pos _ (by simp [hid, hq])]
        show _ = (List.find? _ (q :: rest)).map f
        rw [List.find?_cons_of_pos _ (by simp [hq])]
        rfl
      · show List.find? _ (f q :: rest.map f) = _
        rw [List.find?_cons_of_neg _ (by simp [hid, hq])]
        show _ = (List.find? _ (q :: rest)).map f
        rw [List.find?_cons_of_neg _ (by simp [hq])]
        exact ih

theorem chain_map {ps : List Page} {f : Page → Page} (hid : ∀ p, (f p).id = p.id)
    (hpar : ∀ p, (f p).parent_id = p.parent_id) {o : Option Nat} {l : List Page}
    (h : Chain ps o l) : Chain (ps.map f) o (l.map f) := by
  induction h with
  | nil => exact Chain.nil
  | cons hf hc ih =>
      rename_i i p l
      rw [List.map_append]
      refine Chain.cons (p := f p) ?_ ?_
      · rw [findPage_map hid, hf]; rfl
      · rw [hpar]; exact ih

theorem chainRows_of_chain {ps : List Page} {o : Option Nat} {l : List Page}
    (h : Chain ps o l) : ∀ {fuel : Nat}, l.length ≤ fuel → chainRows fuel ps o = some l := by
  induction h with
  | nil =>
      intro fuel _
      cases fuel <;> rfl
  | cons hf hc ih =>
      rename_i i p l
      intro fuel hfuel
      have hpos : 0 < fuel := by
        simp only [List.length_append, List.length_singleton] at hfuel
        omega
      match fuel, hpos with
      | f + 1, _ =>
          have hl : l.length ≤ f := by
            simp only [List.length_append, List.length_singleton] at hfuel
            omega
          show chainRows (f + 1) ps (some i) = _
          rw [chainRows, hf]
          show (chainRows f ps p.parent_id).map (· ++ [p]) = some (l ++ [p])
          rw [ih hl]
          rfl

theorem buildParts_of_chain {ps : List Page} (hzero : ∀ r ∈ ps, r.parent_id ≠ some 0) :
    ∀ {o : Option Nat} {l : List Page}, Chain ps o l →
    (o = none ∨ ∃ k, o = some k ∧ k ≠ 0) →
    ∀ {fuel : Nat}, l.length < fuel → buildParts fuel ps o = l.map Page.title := by
  intro o l h
  induction h with
  | nil =>
      intro _ fuel _
      cases fuel <;> rfl
  | cons hf hc ih =>
      rename_i i p l
      intro ho fuel hfuel
      rcases ho with hcontra | ⟨k, hk, hkne⟩
      · cases hcontra
      · injection hk with hk
        subst hk
        match fuel, hfuel with
        | f + 1, hfuel =>
            have hl : l.length < f := by
              simp only [List.length_append, List.length_singleton] at hfuel
              omega
            have hrec : buildParts f ps p.parent_id = l.map Page.title := by
              refine ih ?_ hl
              cases hp : p.parent_id with
              | none => exact Or.inl rfl
              | some j =>
                  refine Or.inr ⟨j, rfl, fun hj => ?_⟩
                  exact hzero p (findPage_mem hf) (by rw [hp, hj])
            show buildParts (f + 1) ps (some i) = _
            rw [buildParts, if_neg hkne, hf]
            show buildParts f ps p.parent_id ++ [p.title] = (l ++ [p]).map Page.title
            rw [hrec, List.map_append]
            rfl

theorem joinSep_append_singleton (sep y : String) :
    ∀ (xs : List String), xs ≠ [] →
      joinSep sep (xs ++ [y]) = joinSep sep xs ++ sep ++ y
  | [], h => absurd rfl h
  | [x], _ => rfl
  | x1 :: x2 :: rest, _ => by
      show x1 ++ sep ++ joinSep sep ((x2 :: rest) ++ [y]) = x1 ++ sep ++ joinSep sep (x2 :: rest) ++ sep ++ y
      rw [joinSep_append_singleton sep y (x2 :: rest) (by simp)]
      simp [String.append_assoc]

/-! ## Claim 8: cascading delete -/

/-- Ids of the proper ancestors of a page, computed from its parent chain. -/
def ancIds (ps : List Page) (q : Page) : List Nat :=
  ((chainRows ps.length ps q.parent_id).getD []).map Page.id

/-- Whether the page with id pid is a proper ancestor of q, that is, q is a
descendant of pid. -/
def isDescB (ps : List Page) (pid : Nat) (q : Page) : Bool :=
  (ancIds ps q).contains pid

/-- Whether id x belongs to the subtree deleted at pid: x is pid itself or
the row of x descends from pid. -/
def pageRemoved (ps : List Page) (pid : Nat) (x : Nat) : Bool :=
  decide (x = pid) ||
    (match findPage ps x with
     | some q => isDescB ps pid q
     | none => false)

theorem eq_of_mem_of_id_eq {ps : List Page} (hnd : (ps.map Page.id).Nodup)
    {q r : Page} (hq : q ∈ ps) (hr : r ∈ ps) (h : q.id = r.id) : q = r := by
  have h1 := findPage_of_mem hnd hq
  have h2 := findPage_of_mem hnd hr
  rw [h] at h1
  rw [h1] at h2
  injection h2

theorem subset_growRemoved (ps : List Page) (s : List Nat) :
    ∀ x ∈ s, x ∈ growRemoved ps s :=
  fun _ hx => List.mem_append.mpr (Or.inl hx)

theorem growRemoved_mono {ps : List Page} {s t : List Nat} (h : ∀ x ∈ s, x ∈ t) :
    ∀ x ∈ growRemoved ps s, x ∈ growRemoved ps t := by
  intro x hx
  rcases List.mem_append.mp hx with hx | hx
  · exact subset_growRemoved ps t x (h x hx)
  · rcases List.mem_map.mp hx with ⟨q, hq, rfl⟩
    have hq' := List.mem_filter.mp hq
    have hpar : parentInSet q s = true := by
      have := hq'.2
      simp only [Bool.and_eq_true] at this
      exact this.1
    by_cases hmem : q.id ∈ t
    · exact subset_growRemoved ps t q.id hmem
    · refine List.mem_append.mpr (Or.inr (List.mem_map_of_mem _ (List.mem_filter.mpr ⟨hq'.1, ?_⟩)))
      have hpart : parentInSet q t = true := by
        unfold parentInSet at hpar ⊢
        cases hp : q.parent_id with
        | none => rw [hp] at hpar; cases hpar
        | some j =>
            rw [hp] at hpar
            exact List.elem_iff.mpr (h j (List.elem_iff.mp hpar))
      simp [hpart, hmem]

theorem mem_growRemoved_of_parent {ps : List Page} {s : List Nat} {q : Page} {j : Nat}
    (hq : q ∈ ps) (hpar : q.parent_id = some j) (hj : j ∈ s) : q.id ∈ growRemoved ps s := by
  by_cases hmem : q.id ∈ s
  · exact subset_growRemoved ps s q.id hmem
  · refine List.mem_append.mpr (Or.inr (List.mem_map_of_mem _ (List.mem_filter.mpr ⟨hq, ?_⟩)))
    have : parentInSet q s = true := by
      unfold parentInSet
      rw [hpar]
      exact List.elem_iff.mpr hj
    simp [this, hmem]

theorem removedIdsIter_succ_out (n : Nat) (ps : List Page) (s : List Nat) :
    removedIdsIter (n + 1) ps s = growRemoved ps (removedIdsIter n ps s) := by
  induction n generalizing s with
  | zero => rfl
  | succ m ih =>
      show removedIdsIter (m + 1) ps (growRemoved ps s) = _
      rw [ih]
      rfl

theorem subset_removedIdsIter (n : Nat) (ps : List Page) (s : List Nat) :
    ∀ x ∈ s, x ∈ removedIdsIter n ps s := by
  induction n generalizing s with
  | zero => intro x hx; exact hx
  | succ m ih =>
      intro x hx
      exact ih (growRemoved ps s) x (subset_growRemoved ps s x hx)

theorem removedIdsIter_add (a b : Nat) (ps : List Page) (s : List Nat) :
    removedIdsIter (a + b) ps s = removedIdsIter a ps (removedIdsIter b ps s) := by
  induction b generalizing s with
  | zero => rfl
  | succ m ih =>
      show removedIdsIter (a + m + 1) ps s = _
      show removedIdsIter (a + m) ps (growRemoved ps s) = _
      rw [ih]
      rfl

theorem removedIdsIter_mono_fuel {m n : Nat} (h : m ≤ n) (ps : List Page) (s : List Nat) :
    ∀ x ∈ removedIdsIter m ps s, x ∈ removedIdsIter n ps s := by
  intro x hx
  have : n = (n - m) + m := by omega
  rw [this, removedIdsIter_add]
  exact subset_removedIdsIter (n - m) ps _ x hx

theorem chain_mem_iter {ps : List Page} {pid : Nat} {o : Option Nat} {l : List Page}
    (h : Chain ps o l) : pid ∈ l.map Page.id →
    ∀ s, pid ∈ s → ∀ q ∈ ps, q.parent_id = o → q.id ∈ removedIdsIter l.length ps s := by
  induction h with
  | nil => intro hmem; simp at hmem
  | cons hf hc ih =>
      rename_i i p l
      intro hmem s hs q hq hqpar
      have hlen : (l ++ [p]).length = l.length + 1 := by simp
      rw [hlen]
      by_cases hpp : pid = p.id
      · have : q.parent_id = some pid := by
          rw [hqpar, hpp, findPage_id hf]
        show q.id ∈ removedIdsIter l.length ps (growRemoved ps s)
        exact subset_removedIdsIter l.length ps _ q.id
          (mem_growRemoved_of_parent hq this hs)
      · have hmem' : pid ∈ l.map Page.id := by
          rcases List.mem_map.mp hmem with ⟨r, hr, hrid⟩
          rcases List.mem_append.mp hr with hr | hr
          · exact List.mem_map.mpr ⟨r, hr, hrid⟩
          · rcases List.mem_singleton.mp hr with rfl
            exact absurd hrid.symm hpp
        have hp : p.id ∈ removedIdsIter l.length ps s :=
          ih hmem' s hs p (findPage_mem hf) rfl
        rw [removedIdsIter_succ_out]
        have : q.parent_id = some p.id := by rw [hqpar, findPage_id hf]
        exact mem_growRemoved_of_parent hq this hp

/-- Soundness invariant: everything in the working set lies in the subtree. -/
theorem growRemoved_sound {ps : List Page} (hnd : (ps.map Page.id).Nodup)
    (hroot : ∀ p ∈ ps, ∃ l, Chain ps p.parent_id l) {pid : Nat} {s : List Nat}
    (hinv : ∀ x ∈ s, pageRemoved ps pid x = true) :
    ∀ x ∈ growRemoved ps s, pageRemoved ps pid x = true := by
  intro x hx
  rcases List.mem_append.mp hx with hx | hx
  · exact hinv x hx
  · rcases List.mem_map.mp hx with ⟨q, hq, rfl⟩
    have hq' := List.mem_filter.mp hq
    have hqps : q ∈ ps := hq'.1
    have hpar : parentInSet q s = true := by
      have := hq'.2
      simp only [Bool.and_eq_true] at this
      exact this.1
    cases hp : q.parent_id with
    | none =>
        unfold parentInSet at hpar
        rw [hp] at hpar
        cases hpar
    | some j =>
        unfold parentInSet at hpar
        rw [hp] at hpar
        have hj : j ∈ s := List.elem_iff.mp hpar
        have hjr := hinv j hj
        rcases hroot q hqps with ⟨l, hch⟩
        rw [hp] at hch
        rcases hch with _ | @⟨_, rowj, l', hfj, hcj⟩
        have hanc : ancIds ps q = (l' ++ [rowj]).map Page.id := by
          unfold ancIds
          rw [hp, chainRows_of_chain (Chain.cons hfj hcj)
            (chain_length_le (Chain.cons hfj hcj))]
          rfl
        unfold pageRemoved
        rw [findPage_of_mem hnd hqps]
        show (decide (q.id = pid) || isDescB ps pid q) = true
        refine (Bool.or_eq_true _ _).mpr (Or.inr ?_)
        unfold isDescB
        rw [hanc]
        refine List.elem_iff.mpr ?_
        unfold pageRemoved at hjr
        rcases Bool.or_eq_true _ _ |>.mp hjr with hjr | hjr
        · have : j = pid := of_decide_eq_true hjr
          subst this
          refine List.mem_map.mpr ⟨rowj, by simp, ?_⟩
          exact findPage_id hfj
        · rw [hfj] at hjr
          have : pid ∈ ancIds ps rowj := List.elem_iff.mp hjr
          unfold ancIds at this
          rw [chainRows_of_chain hcj (chain_length_le hcj)] at this
          simp only [Option.getD_some] at this
          rcases List.mem_map.mp this with ⟨r, hr, hrid⟩
          exact List.mem_map.mpr ⟨r, List.mem_append.mpr (Or.inl hr), hrid⟩

theorem removedIdsIter_sound {ps : List Page} (hnd : (ps.map Page.id).Nodup)
    (hroot : ∀ p ∈ ps, ∃ l, Chain ps p.parent_id l) {pid : Nat} :
    ∀ (n : Nat) (s : List Nat), (∀ x ∈ s, pageRemoved ps pid x = true) →
    ∀ x ∈ removedIdsIter n ps s, pageRemoved ps pid x = true := by
  intro n
  induction n with
  | zero => intro s hinv x hx; exact hinv x hx
  | succ m ih =>
      intro s hinv x hx
      exact ih (growRemoved ps s) (growRemoved_sound hnd hroot hinv) x hx

/-- The deleted id set is exactly pid plus the ids of pid's descendants. -/
theorem removedIds_characterization {ps : List Page} (hnd : (ps.map Page.id).Nodup)
    (hroot : ∀ p ∈ ps, ∃ l, Chain ps p.parent_id l) (pid : Nat) (hpid : ∃ p ∈ ps, p.id = pid) :
    ∀ x, x ∈ removedIds ps pid ↔ pageRemoved ps pid x = true := by
  intro x
  constructor
  · intro hx
    refine removedIdsIter_sound hnd hroot ps.length [pid] ?_ x hx
    intro y hy
    rcases List.mem_singleton.mp hy with rfl
    unfold pageRemoved
    simp
  · intro hx
    rcases Bool.or_eq_true _ _ |>.mp hx with hx | hx
    · have hxe : x = pid := of_decide_eq_true hx
      rw [hxe]
      exact subset_removedIdsIter ps.length ps [pid] pid (List.mem_singleton.mpr rfl)
    · cases hfx : findPage ps x with
      | none => rw [hfx] at hx; cases hx
      | some q =>
          rw [hfx] at hx
          have hx' : isDescB ps pid q = true := hx
          have hqps : q ∈ ps := findPage_mem hfx
          rcases hroot q hqps with ⟨l, hch⟩
          have hanc : ancIds ps q = l.map Page.id := by
            unfold ancIds
            rw [chainRows_of_chain hch (chain_length_le hch)]
            rfl
          have hpidl : pid ∈ l.map Page.id := by
            unfold isDescB at hx'
            rw [hanc] at hx'
            exact List.elem_iff.mp hx' 
          have := chain_mem_iter hch hpidl [pid] (List.mem_singleton.mpr rfl) q hqps rfl
          rw [← findPage_id hfx]
          exact removedIdsIter_mono_fuel (chain_length_le hch) ps [pid] q.id this

theorem chain_parent_not_self {ps : List Page} (hnd : (ps.map Page.id).Nodup)
    {p : Page} {l : List Page} (hp : p ∈ ps) (h : Chain ps p.parent_id l) : p ∉ l := by
  intro hmem
  rcases chain_mem_chain h hmem with ⟨l1, l2, hl, hch⟩
  have hfull : Chain ps (some p.id) (l ++ [p]) :=
    Chain.cons (findPage_of_mem hnd hp) h
  have heq := chain_unique hch hfull
  have h1 : l1 = l := by
    have := congrArg (List.length) heq
    simp only [List.length_append, List.length_singleton] at this
    have hlen : l1.length = l.length := by omega
    exact List.append_inj_left heq (by simp [hlen])
  rw [h1] at hl
  have := congrArg (List.length) hl
  simp only [List.length_append, List.length_singleton] at this
  omega

theorem chain_of_chainRows {ps : List Page}
    (hpok : ∀ q ∈ ps, ∀ j, q.parent_id = some j → (findPage ps j).isSome = true) :
    ∀ (fuel : Nat) (o : Option Nat) (l : List Page), chainRows fuel ps o = some l →
    (o = none ∨ ∃ i, o = some i ∧ (findPage ps i).isSome = true) → Chain ps o l := by
  intro fuel
  induction fuel with
  | zero =>
      intro o l h ho
      rcases ho with rfl | ⟨i, rfl, _⟩
      · cases h; exact Chain.nil
      · cases h
  | succ f ih =>
      intro o l h ho
      rcases ho with rfl | ⟨i, rfl, hres⟩
      · cases h; exact Chain.nil
      · rcases Option.isSome_iff_exists.mp hres with ⟨r, hr⟩
        rw [chainRows, hr] at h
        rcases Option.map_eq_some'.mp h with ⟨l', hl', rfl⟩
        refine Chain.cons hr (ih r.parent_id l' hl' ?_)
        cases hrp : r.parent_id with
        | none => exact Or.inl rfl
        | some j => exact Or.inr ⟨j, rfl, hpok r (findPage_mem hr) j hrp⟩

/-- Decidable well-formedness of a pages table: distinct ids, every parent
link resolving, every parent chain grounded within the page count. -/
def pagesWfB (ps : List Page) : Bool :=
  decide (ps.map Page.id).Nodup &&
  ps.all (fun q => match q.parent_id with
    | some j => (findPage ps j).isSome
    | none => true) &&
  ps.all (fun q => (chainRows ps.length ps q.parent_id).isSome)

theorem nodup_of_wfB {ps : List Page} (h : pagesWfB ps = true) : (ps.map Page.id).Nodup := by
  unfold pagesWfB at h
  simp only [Bool.and_eq_true, decide_eq_true_eq] at h
  exact h.1.1

theorem parentsOk_of_wfB {ps : List Page} (h : pagesWfB ps = true) :
    ∀ q ∈ ps, ∀ j, q.parent_id = some j → (findPage ps j).isSome = true := by
  unfold pagesWfB at h
  simp only [Bool.and_eq_true, decide_eq_true_eq, List.all_eq_true] at h
  intro q hq j hj
  have := h.1.2 q hq
  rw [hj] at this
  exact this

theorem rooted_of_wfB {ps : List Page} (h : pagesWfB ps = true) :
    ∀ q ∈ ps, ∃ l, Chain ps q.parent_id l := by
  intro q hq
  have hall : (chainRows ps.length ps q.parent_id).isSome = true := by
    unfold pagesWfB at h
    simp only [Bool.and_eq_true, decide_eq_true_eq, List.all_eq_true] at h
    exact h.2 q hq
  rcases Option.isSome_iff_exists.mp hall with ⟨l, hl⟩
  refine ⟨l, chain_of_chainRows (parentsOk_of_wfB h) ps.length _ l hl ?_⟩
  cases hqp : q.parent_id with
  | none => exact Or.inl rfl
  | some j => exact Or.inr ⟨j, rfl, parentsOk_of_wfB h q hq j hqp⟩

theorem length_filter_or_of_disjoint (l : List Page) (P Q : Page → Bool)
    (hdisj : ∀ x ∈ l, ¬ (P x = true ∧ Q x = true)) :
    (l.filter (fun x => P x || Q x)).length = (l.filter P).length + (l.filter Q).length := by
  induction l with
  | nil => rfl
  | cons a rest ih =>
      have hrest := ih (fun x hx => hdisj x (List.mem_cons_of_mem a hx))
      cases hP : P a with
      | true =>
          cases hQ : Q a with
          | true => exact absurd ⟨hP, hQ⟩ (hdisj a (List.mem_cons_self a rest))
          | false =>
              simp only [List.filter_cons, hP, hQ, Bool.true_or, if_pos, List.length_cons,
                Bool.false_eq_true, if_neg, hrest]
              simp [hrest]
              omega
      | false =>
          cases hQ : Q a with
          | true =>
              simp [List.filter_cons, hP, hQ, hrest]
              omega
          | false =>
              simp [List.filter_cons, hP, hQ, hrest]

theorem length_filter_partition (l : List Page) (P : Page → Bool) :
    (l.filter (fun a => ! P a)).length + (l.filter P).length = l.length := by
  induction l with
  | nil => rfl
  | cons a rest ih =>
      cases hP : P a <;> simp [List.filter_cons, hP] <;> omega

theorem length_filter_id_single {ps : List Page} (hnd : (ps.map Page.id).Nodup)
    {p : Page} (hp : p ∈ ps) :
    (ps.filter (fun q => decide (q.id = p.id))).length = 1 := by
  induction ps with
  | nil => cases hp
  | cons a rest ih =>
      have hnd2 : a.id ∉ rest.map Page.id ∧ (rest.map Page.id).Nodup := by
        rw [List.map_cons, List.nodup_cons] at hnd
        exact hnd
      rcases List.mem_cons.mp hp with rfl | hmem
      · have hvanish : rest.filter (fun q => decide (q.id = p.id)) = [] := by
          refine List.filter_eq_nil_iff.mpr (fun q hq => ?_)
          simp only [decide_eq_true_eq]
          intro hcontra
          exact hnd2.1 (hcontra ▸ List.mem_map_of_mem Page.id hq)
        simp [List.filter_cons, hvanish]
      · have hane : ¬ (a.id = p.id) := by
          intro hcontra
          exact hnd2.1 (hcontra ▸ List.mem_map_of_mem Page.id hmem)
        simp only [List.filter_cons, decide_eq_true_eq]
        rw [if_neg hane]
        exact ih hnd2.2 hmem

theorem pageRemoved_mem_eq {ps : List Page} (hnd : (ps.map Page.id).Nodup) (pid : Nat)
    {q : Page} (hq : q ∈ ps) :
    pageRemoved ps pid q.id = (decide (q.id = pid) || isDescB ps pid q) := by
  unfold pageRemoved
  rw [findPage_of_mem hnd hq]

theorem isDescB_self_false {ps : List Page} (hnd : (ps.map Page.id).Nodup)
    (hroot : ∀ q ∈ ps, ∃ l, Chain ps q.parent_id l)
    {p : Page} (hp : p ∈ ps) : isDescB ps p.id p = false := by
  cases hd : isDescB ps p.id p
  · rfl
  · exfalso
    unfold isDescB at hd
    have hmem := List.elem_iff.mp hd
    rcases hroot p hp with ⟨l, hch⟩
    unfold ancIds at hmem
    rw [chainRows_of_chain hch (chain_length_le hch)] at hmem
    simp only [Option.getD_some] at hmem
    rcases List.mem_map.mp hmem with ⟨r, hr, hrid⟩
    have : r = p := eq_of_mem_of_id_eq hnd (chain_subset hch r hr) hp hrid
    exact chain_parent_not_self hnd hp hch (this ▸ hr)

/-- C8: on a well-formed page table, deletePage(P) succeeds and removes
exactly the pages of P's subtree - P itself together with every descendant -
and exactly the cells belonging to those pages; the removed pages number
N + 1 where N is the number of descendants of P, and pages plus removed
pages partition the original table, so nothing else is deleted. -/
theorem claim8_delete (db : Db) (p : Page) (hwf : pagesWfB db.pages = true)
    (hp : p ∈ db.pages) :
    deletePage db p.id =
      .ok { db with
        pages := db.pages.filter (fun q => ! pageRemoved db.pages p.id q.id),
        cells := db.cells.filter (fun c => ! pageRemoved db.pages p.id c.page_id) } ∧
    (db.pages.filter (fun q => pageRemoved db.pages p.id q.id)).length =
      (db.pages.filter (fun q => isDescB db.pages p.id q)).length + 1 ∧
    (db.pages.filter (fun q => ! pageRemoved db.pages p.id q.id)).length +
      (db.pages.filter (fun q => pageRemoved db.pages p.id q.id)).length =
      db.pages.length := by
  have hnd := nodup_of_wfB hwf
  have hroot := rooted_of_wfB hwf
  have hpid : ∃ q ∈ db.pages, q.id = p.id := ⟨p, hp, rfl⟩
  have hchar : ∀ x, (removedIds db.pages p.id).contains x = pageRemoved db.pages p.id x := by
    intro x
    have h := removedIds_characterization hnd hroot p.id hpid x
    cases hpr : pageRemoved db.pages p.id x
    · refine Bool.eq_false_iff.mpr (fun hc => ?_)
      have := h.mp (List.elem_iff.mp hc)
      rw [hpr] at this
      cases this
    · exact List.elem_iff.mpr (h.mpr hpr)
  refine ⟨?_, ?_, length_filter_partition db.pages _⟩
  · unfold deletePage
    rw [findPage_of_mem hnd hp]
    rw [if_neg (by simp)]
    have hfp : (fun q : Page => ! (removedIds db.pages p.id).contains q.id)
        = (fun q => ! pageRemoved db.pages p.id q.id) :=
      funext (fun q => by rw [hchar])
    have hfc : (fun c : Cell => ! (removedIds db.pages p.id).contains c.page_id)
        = (fun c => ! pageRemoved db.pages p.id c.page_id) :=
      funext (fun c => by rw [hchar])
    show Except.ok _ = _
    rw [hfp, hfc]
  · have hcong : db.pages.filter (fun q => pageRemoved db.pages p.id q.id) =
        db.pages.filter (fun q => decide (q.id = p.id) || isDescB db.pages p.id q) :=
      List.filter_congr (fun q hq => by rw [pageRemoved_mem_eq hnd p.id hq])
    rw [hcong]
    rw [length_filter_or_of_disjoint db.pages _ _ (fun q hq hcontra => ?_)]
    · rw [length_filter_id_single hnd hp]
      have heta : List.filter (fun q => isDescB db.pages p.id q) db.pages
          = List.filter (isDescB db.pages p.id) db.pages := rfl
      rw [heta]
      omega
    · have hqp : q = p := eq_of_mem_of_id_eq hnd hq hp (of_decide_eq_true hcontra.1)
      have h2 := hcontra.2
      rw [hqp, isDescB_self_false hnd hroot hp] at h2
      cases h2

/-- Concrete state for the claim 8 witness: page A with child B and
grandchild C, an unrelated root page D, and cells on B and D. -/
def claim8Db : Db :=
  ⟨[⟨0, "Main Page", none, "Main Page"⟩, ⟨1, "A", none, "A"⟩,
    ⟨2, "B", some 1, "A > B"⟩, ⟨3, "C", some 2, "A > B > C"⟩, ⟨4, "D", none, "D"⟩],
   [⟨1, 2, "text", "x", 0⟩, ⟨2, 4, "text", "y", 0⟩], 5, 3⟩

/-- Witness for claim8_delete: deleting A removes A, B, C and B's cell,
keeping Main Page, D and D's cell. -/
theorem claim8_witness :
    deletePage claim8Db 1 =
      .ok { claim8Db with
        pages := [⟨0, "Main Page", none, "Main Page"⟩, ⟨4, "D", none, "D"⟩],
        cells := [⟨2, 4, "text", "y", 0⟩] } ∧
    (claim8Db.pages.filter (fun q => pageRemoved claim8Db.pages 1 q.id)).length = 2 + 1 := by
  have h := claim8_delete claim8Db ⟨1, "A", none, "A"⟩ (by decide) (by decide)
  constructor
  · exact h.1.trans (congrArg Except.ok (by decide))
  · exact h.2.1.trans (by decide)

/-! ## The ALL-CAPS auto-link scan (src/frontend/src/components/Cell.jsx) -/

/-- Uppercase ASCII letter, the regex class [A-Z]. -/
def isUpperCh (c : Char) : Bool := decide ('A' ≤ c) && decide (c ≤ 'Z')

/-- Word character of the regex \b boundary, the class [A-Za-z0-9_]. -/
def isWordCh (c : Char) : Bool :=
  (decide ('A' ≤ c) && decide (c ≤ 'Z')) || (decide ('a' ≤ c) && decide (c ≤ 'z')) ||
  (decide ('0' ≤ c) && decide (c ≤ '9')) || decide (c = '_')

/-- Character class of the run body [A-Z\s]. -/
def inCapsClass (c : Char) : Bool := isUpperCh c || jsIsWs c

/-- Whether a match of length L of the pattern [A-Z][A-Z\s]+[A-Z]\b fits at
the start of s (the \b before s and the leading [A-Z] are checked by the
caller): at least three characters, all within the maximal [A-Z\s] run, the
last one an uppercase letter, and a word boundary after it. -/
def capsLenValid (s : List Char) (L : Nat) : Bool :=
  decide (3 ≤ L) && decide (L ≤ (s.takeWhile inCapsClass).length) &&
  (match (s.takeWhile inCapsClass).drop (L - 1) with
   | c :: _ => isUpperCh c
   | [] => false) &&
  (match s.drop L with
   | [] => true
   | c :: _ => ! isWordCh c)

/-- Greedy match length at the start of s: the regex engine's backtracking
yields the longest valid length. -/
def capsMatchLen (s : List Char) : Option Nat :=
  ((List.range ((s.takeWhile inCapsClass).length + 1)).filter (capsLenValid s)).max?

/-- Whether the position after prev satisfies \b when the next character is
an uppercase letter (a word character): prev must be absent or non-word. -/
def prevBoundaryOk : Option Char → Bool
  | none => true
  | some p => ! isWordCh p

/-- The matchAll loop of the ALL-CAPS pattern: try each position left to
right, on a match record it and resume after its end. Fuel is the standard
structural bound; the string length plus one never exhausts. -/
def capsScanF : Nat → List Char → Option Char → List String
  | 0, _, _ => []
  | _ + 1, [], _ => []
  | fuel + 1, c :: rest, prev =>
      if isUpperCh c && prevBoundaryOk prev then
        match capsMatchLen (c :: rest) with
        | some L =>
            String.mk ((c :: rest).take L) ::
              capsScanF fuel ((c :: rest).drop L) (some (((c :: rest).take L).getLastD c))
        | none => capsScanF fuel rest (some c)
      else capsScanF fuel rest (some c)

/-- All matches of /\b([A-Z][A-Z\s]+[A-Z])\b/g over the markup
(src/frontend/src/components/Cell.jsx line 93). -/
def capsMatches (html : String) : List String :=
  capsScanF (html.data.length + 1) html.data none

/-- The inline link markup the scan inserts (Cell.jsx line 117). -/
def linkHtml (pid : Nat) (label : String) : String :=
  "<a href=\"#\" class=\"wiki-link\" data-page-id=\"" ++ toString pid ++ "\">" ++
    label ++ "</a>"

/-- One side of \b for the literal-phrase replacement: the two neighbouring
word-ness values must differ; a missing neighbour counts as non-word. -/
def xorB (a b : Bool) : Bool := (a && ! b) || (! a && b)

def headIsWord : List Char → Bool
  | [] => false
  | c :: _ => isWordCh c

/-- The global word-bounded literal replacement
newHtml.replace(new RegExp(bounded escaped phrase, g), rep): scan left to
right over the original characters, replacing each non-overlapping
occurrence of pat that sits between word boundaries. -/
def replWB : Nat → List Char → Option Char → List Char → List Char → List Char
  | 0, s, _, _, _ => s
  | _ + 1, [], _, _, _ => []
  | fuel + 1, c :: rest, prev, pat, rep =>
      if ! pat.isEmpty && pat.isPrefixOf (c :: rest) &&
          xorB (match prev with | none => false | some p => isWordCh p) (headIsWord pat) &&
          xorB (headIsWord pat.reverse) (headIsWord ((c :: rest).drop pat.length)) then
        rep ++ replWB fuel ((c :: rest).drop pat.length) (some (pat.getLastD c)) pat rep
      else c :: replWB fuel rest (some c) pat rep

def replaceAllWB (s pat rep : String) : String :=
  String.mk (replWB (s.data.length + 1) s.data none pat.data rep.data)

/-- The page lookup of the scan: allPages.find with a case-insensitive exact
title match, never the page being edited (Cell.jsx lines 111-113). -/
def findMatchingPage (pages : List Page) (pid : Nat) (phrase : String) : Option Page :=
  pages.find? (fun p => decide (upperStr p.title = phrase) && decide (p.id ≠ pid))

/-- The handleInput auto-link pass (Cell.jsx lines 89-159, the string
rewriting part): match the ALL-CAPS runs of the original markup once, then
for each matched phrase in order look up a matching other page and, on a
hit, globally replace the word-bounded phrase with link markup labelled by
its Title-Case rendering. -/
def autoLinkScan (html : String) (pages : List Page) (pid : Nat) : String :=
  (capsMatches html).foldl
    (fun h m =>
      match findMatchingPage pages pid (jsTrim m) with
      | some pg => replaceAllWB h (jsTrim m) (linkHtml pg.id (toCamelCase (jsTrim m)))
      | none => h) html

/-- The replacements the scan actually performs: matched phrase paired with
the page chosen for it. -/
def scanLog (html : String) (pages : List Page) (pid : Nat) : List (String × Page) :=
  (capsMatches html).filterMap
    (fun m => (findMatchingPage pages pid (jsTrim m)).map (fun pg => (jsTrim m, pg)))

/-- Substring test used to state what the scan output does not contain. -/
def listContainsSub (sub : List Char) : List Char → Bool
  | [] => sub.isEmpty
  | c :: rest => sub.isPrefixOf (c :: rest) || listContainsSub sub rest

def containsSub (s sub : String) : Bool := listContainsSub sub.data s.data

theorem autoLinkScan_eq_foldl_log (html : String) (pages : List Page) (pid : Nat) :
    autoLinkScan html pages pid =
      (scanLog html pages pid).foldl
        (fun h pr => replaceAllWB h pr.1 (linkHtml pr.2.id (toCamelCase pr.1))) html := by
  unfold autoLinkScan scanLog
  generalize capsMatches html = ms
  induction ms generalizing html with
  | nil => rfl
  | cons m rest ih =>
      show List.foldl _ _ (m :: rest) = _
      rw [List.foldl_cons, List.filterMap_cons]
      cases hf : findMatchingPage pages pid (jsTrim m) with
      | none =>
          simp only [hf, Option.map_none']
          exact ih _
      | some pg =>
          simp only [hf, Option.map_some']
          rw [List.foldl_cons]
          exact ih _

theorem autoLinkScan_of_log_nil {html : String} {pages : List Page} {pid : Nat}
    (h : scanLog html pages pid = []) : autoLinkScan html pages pid = html := by
  rw [autoLinkScan_eq_foldl_log, h]
  rfl

/-- Concrete page set for claim 3: a page Def and a page Abc Def, the cell
being edited belonging to page 1. -/
def claim3Pages : List Page := [⟨2, "Def", none, ""⟩, ⟨3, "Abc Def", none, ""⟩]

/-- C3, counterexample: in the content DEF. ABC DEF the maximal run ABC DEF
matches the other page Abc Def (id 3), so the claim requires link markup
with data-page-id 3; but the earlier run DEF is processed first and its
global word-bounded replacement rewrites the DEF inside ABC DEF, so the
scan's output links both DEF occurrences to page 2 and contains no
reference to page 3 at all. -/
theorem claim3_counterexample :
    "ABC DEF" ∈ capsMatches "DEF. ABC DEF" ∧
    findMatchingPage claim3Pages 1 "ABC DEF" = some ⟨3, "Abc Def", none, ""⟩ ∧
    autoLinkScan "DEF. ABC DEF" claim3Pages 1 =
      "<a href=\"#\" class=\"wiki-link\" data-page-id=\"2\">Def</a>. ABC <a href=\"#\" class=\"wiki-link\" data-page-id=\"2\">Def</a>" ∧
    containsSub (autoLinkScan "DEF. ABC DEF" claim3Pages 1) "data-page-id=\"3\"" = false := by
  exact ⟨by decide, by decide, by decide, by decide⟩

/-- C3, amended: every replacement the scan performs targets a page other
than the one being edited whose uppercased title equals the matched phrase
(so the scan never inserts a self-link, and a run matching only the edited
page's own title triggers no replacement); the scan equals the left-to-right
fold of global word-bounded replacements over its match log, computed once
on the original content - so an earlier run's replacement may rewrite part
of a later matched run, which is then left unlinked; when no matched run
resolves to another page the content is returned unchanged. -/
theorem claim3_autolink_scan :
    (∀ (html : String) (pages : List Page) (pid : Nat),
        ∀ pr ∈ scanLog html pages pid,
          pr.2.id ≠ pid ∧ upperStr pr.2.title = pr.1 ∧ pr.2 ∈ pages ∧
          ∃ m ∈ capsMatches html, pr.1 = jsTrim m) ∧
    (∀ (html : String) (pages : List Page) (pid : Nat),
        autoLinkScan html pages pid =
          (scanLog html pages pid).foldl
            (fun h pr => replaceAllWB h pr.1 (linkHtml pr.2.id (toCamelCase pr.1))) html) ∧
    (∀ (html : String) (pages : List Page) (pid : Nat),
        (∀ m ∈ capsMatches html, findMatchingPage pages pid (jsTrim m) = none) →
        autoLinkScan html pages pid = html) ∧
    (∀ (pages : List Page) (pid : Nat) (phrase : String),
        (∀ p ∈ pages, upperStr p.title = phrase → p.id = pid) →
        findMatchingPage pages pid phrase = none) := by
  refine ⟨?_, fun html pages pid => autoLinkScan_eq_foldl_log html pages pid, ?_, ?_⟩
  · intro html pages pid pr hpr
    rcases List.mem_filterMap.mp hpr with ⟨m, hm, hsome⟩
    rcases Option.map_eq_some'.mp hsome with ⟨pg, hfind, heq⟩
    cases heq
    have hpred := List.find?_some hfind
    simp only [Bool.and_eq_true, decide_eq_true_eq] at hpred
    exact ⟨hpred.2, hpred.1, List.mem_of_find?_eq_some hfind, m, hm, rfl⟩
  · intro html pages pid h
    refine autoLinkScan_of_log_nil ?_
    unfold scanLog
    refine List.filterMap_eq_nil_iff.mpr (fun m hm => ?_)
    rw [h m hm]
    rfl
  · intro pages pid phrase h
    refine List.find?_eq_none.mpr (fun p hp => ?_)
    simp only [Bool.and_eq_true, decide_eq_true_eq, not_and]
    intro hup hne
    exact hne (h p hp hup)

/-- Witness instantiating claim3_autolink_scan at concrete inputs: the log
entry of the DEF match targets page 2, not the edited page; a content whose
only run matches no page is unchanged; and a page whose only title match is
the edited page itself yields no target. -/
theorem claim3_witness :
    (("DEF", (⟨2, "Def", none, ""⟩ : Page)).2.id ≠ 1 ∧
      upperStr (⟨2, "Def", none, ""⟩ : Page).title = "DEF" ∧
      (⟨2, "Def", none, ""⟩ : Page) ∈ claim3Pages ∧
      ∃ m ∈ capsMatches "DEF. ABC DEF", "DEF" = jsTrim m) ∧
    autoLinkScan "XYZQ" claim3Pages 1 = "XYZQ" ∧
    findMatchingPage [⟨5, "Black Holes", none, ""⟩] 5 "BLACK HOLES" = none := by
  refine ⟨?_, ?_, ?_⟩
  · exact claim3_autolink_scan.1 "DEF. ABC DEF" claim3Pages 1
      ("DEF", ⟨2, "Def", none, ""⟩) (by decide)
  · exact claim3_autolink_scan.2.2.1 "XYZQ" claim3Pages 1 (by decide)
  · exact claim3_autolink_scan.2.2.2 [⟨5, "Black Holes", none, ""⟩] 5 "BLACK HOLES" (by decide)

/-- Concrete page set for claim 4: a page whose title consists of
single-letter words, so its Title-Case label is itself an ALL-CAPS run. -/
def claim4Pages : List Page := [⟨2, "A B", none, ""⟩]

/-- C4, counterexample: scanning A B links it to the page titled A B, but
the Title-Case label of that title is again A B, an ALL-CAPS run, so a
second scan re-matches the label inside the link markup and nests a second
link - the scan is not idempotent. -/
theorem claim4_counterexample :
    autoLinkScan "A B" claim4Pages 1 =
      "<a href=\"#\" class=\"wiki-link\" data-page-id=\"2\">A B</a>" ∧
    autoLinkScan (autoLinkScan "A B" claim4Pages 1) claim4Pages 1 =
      "<a href=\"#\" class=\"wiki-link\" data-page-id=\"2\"><a href=\"#\" class=\"wiki-link\" data-page-id=\"2\">A B</a></a>" ∧
    autoLinkScan (autoLinkScan "A B" claim4Pages 1) claim4Pages 1 ≠
      autoLinkScan "A B" claim4Pages 1 := by
  exact ⟨by decide, by decide, by decide⟩

/-- C4, amended: the scan is a fixed point on content where it performs no
replacement, hence applying it twice equals applying it once whenever the
second pass logs no replacement - as in the specification's BLACK HOLES
scenario, where the Title-Case label is no longer an ALL-CAPS run; but it
is not idempotent in general (see the counterexample). -/
theorem claim4_amended :
    (∀ (html : String) (pages : List Page) (pid : Nat),
        scanLog html pages pid = [] → autoLinkScan html pages pid = html) ∧
    (∀ (html : String) (pages : List Page) (pid : Nat),
        scanLog (autoLinkScan html pages pid) pages pid = [] →
        autoLinkScan (autoLinkScan html pages pid) pages pid = autoLinkScan html pages pid) ∧
    autoLinkScan
        (autoLinkScan "I think BLACK HOLES are great" [⟨2, "Black Holes", none, ""⟩] 1)
        [⟨2, "Black Holes", none, ""⟩] 1 =
      autoLinkScan "I think BLACK HOLES are great" [⟨2, "Black Holes", none, ""⟩] 1 := by
  exact ⟨fun _ _ _ hl => autoLinkScan_of_log_nil hl,
         fun _ _ _ hl => autoLinkScan_of_log_nil hl, by decide⟩

/-- Witness instantiating claim4_amended at concrete inputs. -/
theorem claim4_witness :
    autoLinkScan "no caps here" claim4Pages 1 = "no caps here" ∧
    autoLinkScan (autoLinkScan "XY ZW" claim4Pages 1) claim4Pages 1 =
      autoLinkScan "XY ZW" claim4Pages 1 := by
  exact ⟨claim4_amended.1 "no caps here" claim4Pages 1 (by decide),
         claim4_amended.2.1 "XY ZW" claim4Pages 1 (by decide)⟩

/-! ## Claim 2: the circular-move check -/

theorem cycleWalk_detects {ps : List Page} (hzl : ∀ r ∈ ps, r.parent_id ≠ some 0)
    {o : Option Nat} {l : List Page} (h : Chain ps o l)
    (ho : o = none ∨ ∃ k, o = some k ∧ k ≠ 0) (pid : Nat) :
    ∀ {fuel : Nat}, l.length < fuel →
      cycleWalk fuel ps o pid = some (l.any (fun r => r.parent_id = some pid)) := by
  induction h with
  | nil =>
      intro fuel _
      cases fuel <;> rfl
  | cons hf hc ih =>
      rename_i i p l
      intro fuel hfuel
      rcases ho with hcontra | ⟨k, hk, hkne⟩
      · cases hcontra
      · have hine : i ≠ 0 := by
          injection hk with hk2
          rw [hk2]
          exact hkne
        match fuel, hfuel with
        | f + 1, hfuel =>
            have hl : l.length < f := by
              simp only [List.length_append, List.length_singleton] at hfuel
              omega
            show cycleWalk (f + 1) ps (some i) pid = _
            rw [cycleWalk, if_neg hine, hf]
            dsimp only
            by_cases hpp : p.parent_id = some pid
            · rw [if_pos hpp]
              have hany : (l ++ [p]).any (fun r => r.parent_id = some pid) = true := by
                simp only [List.any_append, List.any_cons, List.any_nil,
                  Bool.or_eq_true, decide_eq_true_eq]
                exact Or.inr (Or.inl hpp)
              rw [hany]
            · rw [if_neg hpp]
              have hside : p.parent_id = none ∨ ∃ j, p.parent_id = some j ∧ j ≠ 0 := by
                cases hp : p.parent_id with
                | none => exact Or.inl rfl
                | some j =>
                    refine Or.inr ⟨j, rfl, fun hj => ?_⟩
                    exact hzl p (findPage_mem hf) (by rw [hp, hj])
              rw [ih hside hl]
              congr 1
              simp only [List.any_append, List.any_cons, List.any_nil, Bool.or_false]
              have hd : decide (p.parent_id = some pid) = false := by simp [hpp]
              rw [hd, Bool.or_false]

theorem chain_any_parent {ps : List Page} {o : Option Nat} {l : List Page}
    (h : Chain ps o l) {pid : Nat} (hmem : pid ∈ l.map Page.id) :
    l.any (fun r => r.parent_id = some pid) = true ∨ o = some pid := by
  induction h with
  | nil => simp at hmem
  | cons hf hc ih =>
      rename_i i p l
      simp only [List.map_append, List.map_cons, List.map_nil] at hmem
      rcases List.mem_append.mp hmem with hl | hp
      · rcases ih hl with hany | hlink
        · left
          simp only [List.any_append, Bool.or_eq_true]
          exact Or.inl hany
        · left
          simp only [List.any_append, List.any_cons, List.any_nil, Bool.or_eq_true,
            decide_eq_true_eq]
          exact Or.inr (Or.inl hlink)
      · have hpe : pid = p.id := by simpa using hp
        right
        rw [hpe, findPage_id hf]

/-- Fact used throughout claims 1 and 2: a page never occurs on its own
ancestor chain, in id form. -/
theorem not_mem_chain_ids {ps : List Page} (hnd : (ps.map Page.id).Nodup)
    {p : Page} {l : List Page} (hp : p ∈ ps) (h : Chain ps p.parent_id l) :
    p.id ∉ l.map Page.id := by
  intro hmem
  rcases List.mem_map.mp hmem with ⟨r, hr, hrid⟩
  have hrp : r = p := eq_of_mem_of_id_eq hnd (chain_subset h r hr) hp hrid
  exact chain_parent_not_self hnd hp h (hrp ▸ hr)

/-- C2, amended: on a well-formed tree in which no page hangs off the
synthetic main page and the synthetic page itself is detached (the case
whenever page 0 has never been moved), a PUT that would move a page under
itself or under one of its own descendants is rejected with the cycle error
and leaves the database - every page's title, parent_id and path -
unchanged. -/
theorem claim2_cycle_guard (db : Db) (pageId k : Nat) (titleArg : Option String)
    (hwf : pagesWfB db.pages = true)
    (hzl : ∀ p ∈ db.pages, p.parent_id ≠ some 0)
    (hz0 : ∀ p ∈ db.pages, p.id = 0 → p.parent_id = none)
    (page : Page) (hpg : findPage db.pages pageId = some page)
    (htitle : jsTrim (titleArg.getD page.title) ≠ "")
    (hdesc : k = pageId ∨ pageId ∈ strictAncestorIds db.pages k) :
    putPage db pageId titleArg (some (some k)) = (PutResp.cycleErr, db) := by
  have hnd := nodup_of_wfB hwf
  have hroot := rooted_of_wfB hwf
  have hpmem : page ∈ db.pages := findPage_mem hpg
  have hpid : page.id = pageId := findPage_id hpg
  rcases hroot page hpmem with ⟨lp, hlp⟩
  have hnm : pageId ∉ lp.map Page.id := hpid ▸ not_mem_chain_ids hnd hpmem hlp
  have hne_cur : some k ≠ page.parent_id := by
    intro hcur
    rcases hdesc with rfl | hanc
    · have hlp2 : Chain db.pages (some k) lp := hcur ▸ hlp
      cases hlp2 with
      | cons hf2 hc2 =>
          rename_i p2 l2
          rw [hpg] at hf2
          injection hf2 with hf2
          refine hnm ?_
          simp only [List.map_append, List.map_cons, List.map_nil]
          refine List.mem_append.mpr (Or.inr ?_)
          simp [← hf2, hpid]
    · unfold strictAncestorIds at hanc
      cases hfk : findPage db.pages k with
      | none => rw [hfk] at hanc; simp at hanc
      | some rk =>
          rw [hfk] at hanc
          have hanc2 : pageId ∈
              List.map Page.id ((chainRows db.pages.length db.pages rk.parent_id).getD []) :=
            hanc
          rcases hroot rk (findPage_mem hfk) with ⟨lk, hlk⟩
          rw [chainRows_of_chain hlk (chain_length_le hlk)] at hanc2
          simp only [Option.getD_some] at hanc2
          have hchain : Chain db.pages page.parent_id (lk ++ [rk]) :=
            hcur ▸ Chain.cons hfk hlk
          have hnm2 : pageId ∉ (lk ++ [rk]).map Page.id :=
            hpid ▸ not_mem_chain_ids hnd hpmem hchain
          refine hnm2 ?_
          simp only [List.map_append]
          exact List.mem_append.mpr (Or.inl hanc2)
  have hcheck : (if some k = page.parent_id then some false
      else if some k = some pageId then some true
      else cycleWalk (db.pages.length + 1) db.pages (some k) pageId) = some true := by
    rw [if_neg (fun hcur => hne_cur hcur)]
    rcases hdesc with rfl | hanc
    · rw [if_pos rfl]
    · have hkne_pid : ¬ (some k = some pageId) := by
        intro hcontra
        injection hcontra with hcontra
        unfold strictAncestorIds at hanc
        rw [hcontra, hpg] at hanc
        have hanc2 : pageId ∈
            List.map Page.id ((chainRows db.pages.length db.pages page.parent_id).getD []) :=
          hanc
        rw [chainRows_of_chain hlp (chain_length_le hlp)] at hanc2
        simp only [Option.getD_some] at hanc2
        exact hnm hanc2
      rw [if_neg hkne_pid]
      unfold strictAncestorIds at hanc
      cases hfk : findPage db.pages k with
      | none => rw [hfk] at hanc; simp at hanc
      | some rk =>
          rw [hfk] at hanc
          have hanc2 : pageId ∈
              List.map Page.id ((chainRows db.pages.length db.pages rk.parent_id).getD []) :=
            hanc
          rcases hroot rk (findPage_mem hfk) with ⟨lk, hlk⟩
          rw [chainRows_of_chain hlk (chain_length_le hlk)] at hanc2
          simp only [Option.getD_some] at hanc2
          have hkchain : Chain db.pages (some k) (lk ++ [rk]) := Chain.cons hfk hlk
          have hk0 : k ≠ 0 := by
            intro hk0
            subst hk0
            have hzp : rk.parent_id = none := hz0 rk (findPage_mem hfk) (findPage_id hfk)
            rw [hzp] at hlk
            cases hlk
            simp at hanc2
          have hany : (lk ++ [rk]).any (fun r => r.parent_id = some pageId) = true := by
            rcases chain_any_parent hlk hanc2 with hany | hlink
            · simp only [List.any_append, Bool.or_eq_true]
              exact Or.inl hany
            · simp only [List.any_append, List.any_cons, List.any_nil, Bool.or_eq_true,
                decide_eq_true_eq]
              exact Or.inr (Or.inl hlink)
          have hwalk := cycleWalk_detects hzl hkchain (Or.inr ⟨k, rfl, hk0⟩) pageId
            (Nat.lt_succ_of_le (chain_length_le hkchain))
          rw [hwalk, hany]
  show ((putPagePlan db pageId titleArg (some (some k))).1,
    runBatches db (putPageBatches db pageId titleArg (some (some k)))) = _
  unfold putPageBatches putPagePlan
  rw [hpg]
  dsimp only
  rw [if_neg (by simpa using htitle), hcheck]
  rfl

/-- State in which the synthetic main page (id 0) has been moved under
page 1, which the PUT route allows: page 0 is then a descendant of page 1. -/
def claim2State : Db :=
  stepOp (stepOp initProjectDb (WikiOp.create "A" none)) (WikiOp.put 0 none (some (some 1)))

/-- C2, counterexample: with page 0 a descendant of page 1, moving page 1
under page 0 must fail with the cycle error, but the ancestor walk treats
the id 0 as the end of the chain (JavaScript: `while (currentId)` is exited
by the falsy number 0), so the move is accepted: the response is not
CycleError and page 1's parent_id really becomes 0, creating a cycle. -/
theorem claim2_counterexample :
    isDescB claim2State.pages 1 ⟨0, "Main Page", some 1, "A > Main Page"⟩ = true ∧
    (⟨0, "Main Page", some 1, "A > Main Page"⟩ : Page) ∈ claim2State.pages ∧
    (putPage claim2State 1 none (some (some 0))).1 ≠ PutResp.cycleErr ∧
    (findPage (putPage claim2State 1 none (some (some 0))).2.pages 1).map Page.parent_id =
      some (some 0) := by
  refine ⟨by decide, by decide, by decide, by decide⟩

def claim2WDb : Db :=
  { pages := [⟨0, "Main Page", none, "Main Page"⟩, ⟨1, "A", none, "A"⟩,
      ⟨2, "B", some 1, "A > B"⟩],
    cells := [], nextPageId := 3, nextCellId := 1 }

/-- Witness: the amended guard fires on a concrete database - moving page 1
under its child 2 returns the cycle error and the database is untouched. -/
theorem claim2_witness :
    pagesWfB claim2WDb.pages = true ∧
    1 ∈ strictAncestorIds claim2WDb.pages 2 ∧
    putPage claim2WDb 1 none (some (some 2)) = (PutResp.cycleErr, claim2WDb) := by
  refine ⟨by decide, by decide, ?_⟩
  exact claim2_cycle_guard claim2WDb 1 2 none (by decide)
    (by decide) (by decide) ⟨1, "A", none, "A"⟩ (by decide) (by decide)
    (Or.inr (by decide))

/-! ## Claim 1: the path invariant. Chain surgery helpers. -/

theorem list_map_ext {α β : Type} (f g : α → β) :
    ∀ (l : List α), (∀ a ∈ l, f a = g a) → l.map f = l.map g
  | [], _ => rfl
  | a :: t, h => by
      simp only [List.map_cons]
      rw [h a (List.mem_cons_self a t), list_map_ext f g t
        (fun x hx => h x (List.mem_cons_of_mem a hx))]

theorem findPage_append_left {ps qs : List Page} {i : Nat} {p : Page}
    (h : findPage ps i = some p) : findPage (ps ++ qs) i = some p := by
  induction ps with
  | nil => cases h
  | cons q rest ih =>
      by_cases hq : q.id = i
      · have h2 : List.find? (fun r => decide (r.id = i)) (q :: rest) = some p := h
        rw [List.find?_cons_of_pos _ (by simpa using hq)] at h2
        show List.find? (fun r => decide (r.id = i)) (q :: (rest ++ qs)) = some p
        rw [List.find?_cons_of_pos _ (by simpa using hq)]
        exact h2
      · have h2 : List.find? (fun r => decide (r.id = i)) (q :: rest) = some p := h
        rw [List.find?_cons_of_neg _ (by simpa using hq)] at h2
        show List.find? (fun r => decide (r.id = i)) (q :: (rest ++ qs)) = some p
        rw [List.find?_cons_of_neg _ (by simpa using hq)]
        exact ih h2

theorem chain_snoc_inv {ps : List Page} {o : Option Nat} {l : List Page} {p : Page}
    (h : Chain ps o (l ++ [p])) :
    ∃ i, o = some i ∧ findPage ps i = some p ∧ Chain ps p.parent_id l := by
  generalize hL : l ++ [p] = L at h
  cases h with
  | nil => exact absurd hL (by simp)
  | cons hf hc =>
      rename_i i q l'
      have hinj := List.append_inj' hL (by simp)
      have hqe : p = q := by simpa using hinj.2
      rw [← hinj.1] at hc
      exact ⟨i, rfl, hqe.symm ▸ hf, hqe.symm ▸ hc⟩

theorem chain_some_inv {ps : List Page} {i : Nat} {l : List Page}
    (h : Chain ps (some i) l) :
    ∃ l0 p, l = l0 ++ [p] ∧ findPage ps i = some p ∧ Chain ps p.parent_id l0 := by
  generalize hO : (some i : Option Nat) = o at h
  cases h with
  | nil => cases hO
  | cons hf hc =>
      rename_i j q l0
      injection hO with hO
      subst hO
      exact ⟨l0, q, rfl, hf, hc⟩

theorem chain_none_inv {ps : List Page} {l : List Page}
    (h : Chain ps none l) : l = [] := by
  generalize hO : (none : Option Nat) = o at h
  cases h with
  | nil => rfl
  | cons hf hc => cases hO

theorem chain_links {ps : List Page} {o : Option Nat} {l : List Page}
    (h : Chain ps o l) : ∀ la (x y : Page) lb, l = la ++ x :: y :: lb →
      y.parent_id = some x.id := by
  induction h with
  | nil =>
      intro la x y lb hl
      exact absurd hl.symm (by simp)
  | cons hf hc ih =>
      rename_i i p l0
      intro la x y lb hl
      rcases List.eq_nil_or_concat lb with rfl | ⟨lb2, z, rfl⟩
      · have hre : l0 ++ [p] = (la ++ [x]) ++ [y] := by
          rw [hl]; simp
        have hinj := List.append_inj' hre (by simp)
        have hy : p = y := by simpa using hinj.2
        subst hy
        rcases chain_snoc_inv (hinj.1 ▸ hc) with ⟨i2, hi2, hf2, _⟩
        rw [hi2, findPage_id hf2]
      · have hre : l0 ++ [p] = (la ++ x :: y :: lb2) ++ [z] := by
          rw [hl]; simp
        have hinj := List.append_inj' hre (by simp)
        exact ih la x y lb2 hinj.1

theorem chain_graft {qs : List Page} {j : Nat} {l1 : List Page}
    (h1 : Chain qs (some j) l1) {ps : List Page} :
    ∀ (l2 : List Page) {o : Option Nat} (lu : List Page) (p0 : Page),
      p0.id = j → Chain ps o (lu ++ p0 :: l2) →
      (∀ r ∈ l2, findPage qs r.id = some r) → Chain qs o (l1 ++ l2) := by
  intro l2
  induction l2 using List.reverseRecOn with
  | nil =>
      intro o lu p0 hp0 hch hq
      have hch2 : Chain ps o (lu ++ [p0]) := by simpa using hch
      rcases chain_snoc_inv hch2 with ⟨i, rfl, hf, _⟩
      have hip : i = j := by rw [← findPage_id hf, hp0]
      subst hip
      simpa using h1
  | append_singleton l2x z ih =>
      intro o lu p0 hp0 hch hq
      have hch2 : Chain ps o ((lu ++ p0 :: l2x) ++ [z]) := by
        have : lu ++ p0 :: (l2x ++ [z]) = (lu ++ p0 :: l2x) ++ [z] := by simp
        rw [← this]
        exact hch
      rcases chain_snoc_inv hch2 with ⟨i, rfl, hfz, hc2⟩
      have ihc : Chain qs z.parent_id (l1 ++ l2x) :=
        ih lu p0 hp0 hc2 (fun r hr => hq r (List.mem_append.mpr (Or.inl hr)))
      have hqz : findPage qs z.id = some z :=
        hq z (List.mem_append.mpr (Or.inr (List.mem_singleton.mpr rfl)))
      have hcc : Chain qs (some z.id) ((l1 ++ l2x) ++ [z]) := Chain.cons hqz ihc
      have hiz : i = z.id := by rw [← findPage_id hfz]
      rw [hiz]
      simpa using hcc

/-! ## Row-wise view of statement execution -/

/-- Effect of one UPDATE statement on a single pages row (the row-wise view
of applyStoreOp; a cells statement leaves every pages row alone). -/
def opPage (op : StoreOp) (p : Page) : Page :=
  match op with
  | .updPage i t par pa => if p.id = i then { p with title := t, parent_id := par, path := pa } else p
  | .updPath i pa => if p.id = i then { p with path := pa } else p
  | .updCellOrder _ _ _ => p

/-- Whether the statement touches the pages table. -/
def isPageStmt : StoreOp → Bool
  | .updCellOrder _ _ _ => false
  | _ => true

/-- Whether the statement is a path-only UPDATE. -/
def isPathStmt : StoreOp → Bool
  | .updPath _ _ => true
  | _ => false

/-- Whether the statement addresses the pages row with the given id. -/
def opTargets (op : StoreOp) (x : Nat) : Bool :=
  match op with
  | .updPage i _ _ _ => decide (i = x)
  | .updPath i _ => decide (i = x)
  | .updCellOrder _ _ _ => false

/-- Row-wise effect of a statement sequence. -/
def opsPage (ops : List StoreOp) (p : Page) : Page :=
  ops.foldl (fun q op => opPage op q) p

theorem applyStoreOp_pages (db : Db) (op : StoreOp) :
    (applyStoreOp db op).pages = db.pages.map (opPage op) := by
  cases op with
  | updPage i t par pa => rfl
  | updPath i pa => rfl
  | updCellOrder c p i =>
      show db.pages = db.pages.map (fun p => p)
      rw [list_map_ext (fun p => p) id db.pages (fun a _ => rfl), List.map_id]

theorem applyStoreOp_nextP (db : Db) (op : StoreOp) :
    (applyStoreOp db op).nextPageId = db.nextPageId := by
  cases op <;> rfl

theorem applyStoreOp_nextC (db : Db) (op : StoreOp) :
    (applyStoreOp db op).nextCellId = db.nextCellId := by
  cases op <;> rfl

theorem applyStoreOp_cells (db : Db) (op : StoreOp) (h : isPageStmt op = true) :
    (applyStoreOp db op).cells = db.cells := by
  cases op with
  | updPage i t par pa => rfl
  | updPath i pa => rfl
  | updCellOrder c p i => cases h

theorem run_singles_pages :
    ∀ (ops : List StoreOp) (db : Db),
      (runBatches db (ops.map Batch.single)).pages = db.pages.map (opsPage ops)
  | [], db => by
      show db.pages = db.pages.map (fun p => p)
      rw [list_map_ext (fun p => p) id db.pages (fun a _ => rfl), List.map_id]
  | op :: rest, db => by
      show (runBatches (applyStoreOp db op) (rest.map Batch.single)).pages = _
      rw [run_singles_pages rest (applyStoreOp db op), applyStoreOp_pages,
        List.map_map]
      exact list_map_ext _ _ db.pages (fun a _ => rfl)

theorem run_singles_cells :
    ∀ (ops : List StoreOp), (∀ op ∈ ops, isPageStmt op = true) → ∀ (db : Db),
      (runBatches db (ops.map Batch.single)).cells = db.cells
  | [], _, db => rfl
  | op :: rest, h, db => by
      show (runBatches (applyStoreOp db op) (rest.map Batch.single)).cells = _
      rw [run_singles_cells rest (fun o ho => h o (List.mem_cons_of_mem op ho))
        (applyStoreOp db op)]
      exact applyStoreOp_cells db op (h op (List.mem_cons_self op rest))

theorem run_singles_nextP :
    ∀ (ops : List StoreOp) (db : Db),
      (runBatches db (ops.map Batch.single)).nextPageId = db.nextPageId
  | [], db => rfl
  | op :: rest, db => by
      show (runBatches (applyStoreOp db op) (rest.map Batch.single)).nextPageId = _
      rw [run_singles_nextP rest (applyStoreOp db op), applyStoreOp_nextP]

theorem run_singles_nextC :
    ∀ (ops : List StoreOp) (db : Db),
      (runBatches db (ops.map Batch.single)).nextCellId = db.nextCellId
  | [], db => rfl
  | op :: rest, db => by
      show (runBatches (applyStoreOp db op) (rest.map Batch.single)).nextCellId = _
      rw [run_singles_nextC rest (applyStoreOp db op), applyStoreOp_nextC]

theorem opPage_id (op : StoreOp) (p : Page) : (opPage op p).id = p.id := by
  cases op with
  | updPage i t par pa =>
      simp only [opPage]
      split <;> rfl
  | updPath i pa =>
      simp only [opPage]
      split <;> rfl
  | updCellOrder c q i => rfl

theorem opsPage_id :
    ∀ (ops : List StoreOp) (p : Page), (opsPage ops p).id = p.id
  | [], _ => rfl
  | op :: rest, p => by
      show (opsPage rest (opPage op p)).id = p.id
      rw [opsPage_id rest (opPage op p), opPage_id]

theorem opPage_skip (op : StoreOp) (p : Page) (h : opTargets op p.id = false) :
    opPage op p = p := by
  cases op with
  | updPage i t par pa =>
      have hne : ¬ (p.id = i) := by
        intro hc
        rw [opTargets, decide_eq_false_iff_not] at h
        exact h hc.symm
      show (if p.id = i then _ else _) = p
      rw [if_neg hne]
  | updPath i pa =>
      have hne : ¬ (p.id = i) := by
        intro hc
        rw [opTargets, decide_eq_false_iff_not] at h
        exact h hc.symm
      show (if p.id = i then _ else _) = p
      rw [if_neg hne]
  | updCellOrder c q i => rfl

theorem opsPage_skip :
    ∀ (ops : List StoreOp) (p : Page), (∀ op ∈ ops, opTargets op p.id = false) →
      opsPage ops p = p
  | [], _, _ => rfl
  | op :: rest, p, h => by
      show opsPage rest (opPage op p) = p
      rw [opPage_skip op p (h op (List.mem_cons_self op rest))]
      exact opsPage_skip rest p (fun o ho => h o (List.mem_cons_of_mem op ho))

theorem opPage_fields (op : StoreOp) (p : Page) (h : isPathStmt op = true) :
    (opPage op p).title = p.title ∧ (opPage op p).parent_id = p.parent_id := by
  cases op with
  | updPage i t par pa => cases h
  | updPath i pa =>
      simp only [opPage]
      constructor <;> split <;> rfl
  | updCellOrder c q i => exact ⟨rfl, rfl⟩

theorem opsPage_fields :
    ∀ (ops : List StoreOp), (∀ op ∈ ops, isPathStmt op = true) → ∀ (p : Page),
      (opsPage ops p).title = p.title ∧ (opsPage ops p).parent_id = p.parent_id
  | [], _, _ => ⟨rfl, rfl⟩
  | op :: rest, h, p => by
      show (opsPage rest (opPage op p)).title = p.title ∧ _
      have h1 := opPage_fields op p (h op (List.mem_cons_self op rest))
      have h2 := opsPage_fields rest (fun o ho => h o (List.mem_cons_of_mem op ho))
        (opPage op p)
      exact ⟨h2.1.trans h1.1, h2.2.trans h1.2⟩

theorem opsPage_path_value :
    ∀ (ops : List StoreOp) (p : Page) (V : String),
      (∀ op ∈ ops, isPathStmt op = true) →
      (∀ i pa, StoreOp.updPath i pa ∈ ops → i = p.id → pa = V) →
      (∃ pa, StoreOp.updPath p.id pa ∈ ops) →
      (opsPage ops p).path = V
  | [], _, _, _, _, hone => by
      rcases hone with ⟨pa, hpa⟩
      cases hpa
  | op :: rest, p, V, hall, hv, hone => by
      show (opsPage rest (opPage op p)).path = V
      by_cases ht : opTargets op p.id = true
      · have hop : ∃ pa, op = StoreOp.updPath p.id pa := by
          cases op with
          | updPage i t par pa => cases hall _ (List.mem_cons_self _ rest)
          | updPath i pa =>
              have : i = p.id := by
                rw [opTargets, decide_eq_true_eq] at ht
                exact ht
              exact ⟨pa, by rw [this]⟩
          | updCellOrder c q i => cases ht
        rcases hop with ⟨pa, rfl⟩
        have hpaV : pa = V := hv p.id pa (List.mem_cons_self _ rest) rfl
        have hrow : opPage (StoreOp.updPath p.id pa) p = { p with path := pa } := by
          simp [opPage]
        rw [hrow]
        by_cases hrest : ∃ pb, StoreOp.updPath p.id pb ∈ rest
        · exact opsPage_path_value rest _ V
            (fun o ho => hall o (List.mem_cons_of_mem _ ho))
            (fun i pb hmem hip => hv i pb (List.mem_cons_of_mem _ hmem) hip)
            hrest
        · have hnt : ∀ o ∈ rest, opTargets o ({ p with path := pa } : Page).id = false := by
            intro o ho
            cases o with
            | updPage i t par pa => cases hall _ (List.mem_cons_of_mem _ ho)
            | updPath i pb =>
                by_cases hip : i = p.id
                · exact absurd ⟨pb, hip ▸ ho⟩ hrest
                · simpa [opTargets] using hip
            | updCellOrder c q i => rfl
          rw [opsPage_skip rest _ hnt]
          exact hpaV
      · have hskip : opPage op p = p := opPage_skip op p (by
          cases h : opTargets op p.id
          · rfl
          · exact absurd h ht)
        rw [hskip]
        have hone2 : ∃ pa, StoreOp.updPath p.id pa ∈ rest := by
          rcases hone with ⟨pa, hpa⟩
          rcases List.mem_cons.mp hpa with rfl | hmem
          · exact absurd (by simp [opTargets]) ht
          · exact ⟨pa, hmem⟩
        exact opsPage_path_value rest p V
          (fun o ho => hall o (List.mem_cons_of_mem _ ho))
          (fun i pa hmem hip => hv i pa (List.mem_cons_of_mem _ hmem) hip)
          hone2

/-! ## buildPath against a grounded chain -/

theorem buildParts_none (fuel : Nat) (ps : List Page) :
    buildParts fuel ps none = [] := by
  cases fuel <;> rfl

theorem buildParts_some_zero (fuel : Nat) (ps : List Page) :
    buildParts fuel ps (some 0) = [] := by
  cases fuel with
  | zero => rfl
  | succ f =>
      show (if (0 : Nat) = 0 then _ else _) = _
      rw [if_pos rfl]

theorem str_empty_append (s : String) : "" ++ s = s := rfl

/-- The route's path expression - buildPath of the parent link, the
conditional separator, then the row title - computes exactly the
specification's breadcrumb of the parent chain, whenever the link is null
or a nonzero resolving id with a grounded chain. -/
theorem buildPath_spec {ps : List Page} (hzl : ∀ r ∈ ps, r.parent_id ≠ some 0)
    {o : Option Nat} {l : List Page} (hch : Chain ps o l)
    (ho : o = none ∨ ∃ k, o = some k ∧ k ≠ 0) (t : String) :
    buildPath (ps.length + 1) ps o ++ (if truthy o then " > " else "") ++ t =
      joinSep " > " (l.map Page.title ++ [t]) := by
  rcases ho with rfl | ⟨k, rfl, hk⟩
  · have hl : l = [] := chain_none_inv hch
    subst hl
    show buildPath (ps.length + 1) ps none ++ "" ++ t = joinSep " > " [t]
    rw [buildPath, buildParts_none]
    rfl
  · rcases chain_some_inv hch with ⟨l0, p, rfl, hf, hc⟩
    have hparts : buildParts (ps.length + 1) ps (some k) = (l0 ++ [p]).map Page.title :=
      buildParts_of_chain hzl hch (Or.inr ⟨k, rfl, hk⟩)
        (Nat.lt_succ_of_le (chain_length_le hch))
    have htr : truthy (some k) = true := by
      show decide (k ≠ 0) = true
      simpa using hk
    rw [buildPath, hparts, htr, if_pos rfl]
    rw [joinSep_append_singleton " > " t ((l0 ++ [p]).map Page.title) (by simp)]

/-- Assemble decidable well-formedness from its three semantic components. -/
theorem wfB_intro {ps : List Page} (h1 : (ps.map Page.id).Nodup)
    (h2 : ∀ q ∈ ps, ∀ j, q.parent_id = some j → (findPage ps j).isSome = true)
    (h3 : ∀ q ∈ ps, ∃ l, Chain ps q.parent_id l) : pagesWfB ps = true := by
  unfold pagesWfB
  simp only [Bool.and_eq_true, decide_eq_true_eq, List.all_eq_true]
  refine ⟨⟨h1, ?_⟩, ?_⟩
  · intro q hq
    cases hqp : q.parent_id with
    | none => rfl
    | some j => exact h2 q hq j hqp
  · intro q hq
    rcases h3 q hq with ⟨l, hl⟩
    rw [chainRows_of_chain hl (chain_length_le hl)]
    rfl

/-! ## The descendant-path cascade: soundness and completeness -/

theorem cascadeKids_flag (ps : List Page) (pid : Nat) (rec : Nat → List StoreOp × Bool) :
    ∀ kids, (∀ c ∈ kids, (rec c.id).2 = false) → (cascadeKids ps pid rec kids).2 = false
  | [], _ => rfl
  | c :: rest, h => by
      have hc : (rec c.id).2 = false := h c (List.mem_cons_self c rest)
      have ih := cascadeKids_flag ps pid rec rest
        (fun x hx => h x (List.mem_cons_of_mem c hx))
      simp only [cascadeKids, hc, Bool.false_eq_true, if_false]
      exact ih

theorem cascadeKids_mem_elim (ps : List Page) (pid : Nat)
    (rec : Nat → List StoreOp × Bool) :
    ∀ kids op, op ∈ (cascadeKids ps pid rec kids).1 →
      (∃ c ∈ kids, op = StoreOp.updPath c.id
        (buildPath (ps.length + 1) ps (some pid) ++ " > " ++ c.title)) ∨
      ∃ c ∈ kids, op ∈ (rec c.id).1
  | [], op, h => absurd h (List.not_mem_nil op)
  | c :: rest, op, h => by
      cases hsub : (rec c.id).2 with
      | true =>
          have h2 : op ∈ StoreOp.updPath c.id
              (buildPath (ps.length + 1) ps (some pid) ++ " > " ++ c.title) ::
              (rec c.id).1 := by
            simpa [cascadeKids, hsub] using h
          rcases List.mem_cons.mp h2 with rfl | hmem
          · exact Or.inl ⟨c, List.mem_cons_self c rest, rfl⟩
          · exact Or.inr ⟨c, List.mem_cons_self c rest, hmem⟩
      | false =>
          have h2 : op ∈ StoreOp.updPath c.id
              (buildPath (ps.length + 1) ps (some pid) ++ " > " ++ c.title) ::
              ((rec c.id).1 ++ (cascadeKids ps pid rec rest).1) := by
            simpa [cascadeKids, hsub] using h
          rcases List.mem_cons.mp h2 with rfl | hmem
          · exact Or.inl ⟨c, List.mem_cons_self c rest, rfl⟩
          · rcases List.mem_append.mp hmem with hl | hr
            · exact Or.inr ⟨c, List.mem_cons_self c rest, hl⟩
            · rcases cascadeKids_mem_elim ps pid rec rest op hr with
                ⟨c2, hc2, he⟩ | ⟨c2, hc2, he⟩
              · exact Or.inl ⟨c2, List.mem_cons_of_mem c hc2, he⟩
              · exact Or.inr ⟨c2, List.mem_cons_of_mem c hc2, he⟩

theorem cascadeKids_mem_intro (ps : List Page) (pid : Nat)
    (rec : Nat → List StoreOp × Bool) :
    ∀ kids, (∀ c ∈ kids, (rec c.id).2 = false) → ∀ c ∈ kids,
      (StoreOp.updPath c.id
        (buildPath (ps.length + 1) ps (some pid) ++ " > " ++ c.title) ∈
          (cascadeKids ps pid rec kids).1) ∧
      ∀ op ∈ (rec c.id).1, op ∈ (cascadeKids ps pid rec kids).1
  | [], _, c, hc => absurd hc (List.not_mem_nil c)
  | d :: rest, hfl, c, hc => by
      have hd : (rec d.id).2 = false := hfl d (List.mem_cons_self d rest)
      have hres : (cascadeKids ps pid rec (d :: rest)).1 =
          StoreOp.updPath d.id
            (buildPath (ps.length + 1) ps (some pid) ++ " > " ++ d.title) ::
            ((rec d.id).1 ++ (cascadeKids ps pid rec rest).1) := by
        simp [cascadeKids, hd]
      rcases List.mem_cons.mp hc with rfl | hmem
      · constructor
        · rw [hres]
          exact List.mem_cons_self _ _
        · intro op hop
          rw [hres]
          exact List.mem_cons_of_mem _ (List.mem_append.mpr (Or.inl hop))
      · have ih := cascadeKids_mem_intro ps pid rec rest
          (fun x hx => hfl x (List.mem_cons_of_mem d hx)) c hmem
        constructor
        · rw [hres]
          exact List.mem_cons_of_mem _ (List.mem_append.mpr (Or.inr ih.1))
        · intro op hop
          rw [hres]
          exact List.mem_cons_of_mem _ (List.mem_append.mpr (Or.inr (ih.2 op hop)))

theorem cascadeRun_pathops (ps : List Page) :
    ∀ fuel j, ∀ op ∈ (cascadeRun ps fuel j).1, isPathStmt op = true
  | 0, _, op, h => absurd h (List.not_mem_nil op)
  | fuel + 1, j, op, h => by
      rcases cascadeKids_mem_elim ps j (cascadeRun ps fuel) (childrenOf ps j) op h with
        ⟨c, _, rfl⟩ | ⟨c, _, he⟩
      · rfl
      · exact cascadeRun_pathops ps fuel c.id op he

theorem cascadeRun_no_overflow {ps : List Page}
    (hfind : ∀ c ∈ ps, findPage ps c.id = some c) :
    ∀ fuel {j : Nat} {lj : List Page}, Chain ps (some j) lj →
      ps.length < fuel + lj.length → (cascadeRun ps fuel j).2 = false
  | 0, j, lj, hch, hlen => absurd hlen (by
      have := chain_length_le hch
      omega)
  | fuel + 1, j, lj, hch, hlen => by
      show (cascadeKids ps j (cascadeRun ps fuel) (childrenOf ps j)).2 = false
      refine cascadeKids_flag ps j (cascadeRun ps fuel) (childrenOf ps j) ?_
      intro c hc
      have hcps : c ∈ ps := List.mem_of_mem_filter hc
      have hcp : c.parent_id = some j := by simpa using List.of_mem_filter hc
      have hchc : Chain ps (some c.id) (lj ++ [c]) :=
        Chain.cons (hfind c hcps) (by rw [hcp]; exact hch)
      exact cascadeRun_no_overflow hfind fuel hchc (by
        simp only [List.length_append, List.length_singleton]
        omega)

theorem cascadeRun_sound {ps : List Page} (hnd : (ps.map Page.id).Nodup) :
    ∀ fuel (j : Nat) (lj : List Page), Chain ps (some j) lj →
      ∀ op ∈ (cascadeRun ps fuel j).1,
      ∃ c, c ∈ ps ∧
        op = StoreOp.updPath c.id
          (buildPath (ps.length + 1) ps c.parent_id ++ " > " ++ c.title) ∧
        ∃ lc, Chain ps c.parent_id lc ∧ j ∈ lc.map Page.id
  | 0, _, _, _, op, h => absurd h (List.not_mem_nil op)
  | fuel + 1, j, lj, hch, op, h => by
      rcases cascadeKids_mem_elim ps j (cascadeRun ps fuel) (childrenOf ps j) op h with
        ⟨c, hc, rfl⟩ | ⟨c, hc, hop⟩
      · have hcps : c ∈ ps := List.mem_of_mem_filter hc
        have hcp : c.parent_id = some j := by simpa using List.of_mem_filter hc
        refine ⟨c, hcps, by rw [hcp], lj, by rw [hcp]; exact hch, ?_⟩
        rcases chain_some_inv hch with ⟨l0, p, rfl, hfp, _⟩
        exact List.mem_map.mpr ⟨p, by simp, findPage_id hfp⟩
      · have hcps : c ∈ ps := List.mem_of_mem_filter hc
        have hcp : c.parent_id = some j := by simpa using List.of_mem_filter hc
        have hchc : Chain ps (some c.id) (lj ++ [c]) :=
          Chain.cons (findPage_of_mem hnd hcps) (by rw [hcp]; exact hch)
        rcases cascadeRun_sound hnd fuel c.id (lj ++ [c]) hchc op hop with
          ⟨c2, hc2ps, hshape, lc, hlc, hcid⟩
        refine ⟨c2, hc2ps, hshape, lc, hlc, ?_⟩
        rcases List.mem_map.mp hcid with ⟨w, hw, hwid⟩
        have hwc : w = c := eq_of_mem_of_id_eq hnd (chain_subset hlc w hw) hcps hwid
        subst hwc
        rcases chain_mem_chain hlc hw with ⟨a, b, hdecomp, hpre⟩
        have huniq : a ++ [w] = lj ++ [w] := chain_unique hpre hchc
        have ha : a = lj := (List.append_inj' huniq (by simp)).1
        rcases chain_some_inv hch with ⟨l0, p, hlj, hfp, _⟩
        rw [hdecomp, ha, hlj]
        exact List.mem_map.mpr ⟨p, by simp, findPage_id hfp⟩

theorem cascadeRun_complete {ps : List Page} (hnd : (ps.map Page.id).Nodup) :
    ∀ (l2 : List Page) (fuel : Nat) (j : Nat) (rj : Page) (l1 : List Page),
      rj.id = j → Chain ps (some j) (l1 ++ [rj]) →
      ∀ d ∈ ps, Chain ps d.parent_id ((l1 ++ [rj]) ++ l2) →
      ps.length < fuel + (l1.length + 1) →
      ∃ pa, StoreOp.updPath d.id pa ∈ (cascadeRun ps fuel j).1
  | [], fuel, j, rj, l1, hrj, hpre, d, hd, hfull, hlen => by
      have hfull2 : Chain ps d.parent_id (l1 ++ [rj]) := by simpa using hfull
      rcases chain_snoc_inv hfull2 with ⟨i, hdi, hfi, _⟩
      have hdp : d.parent_id = some j := by
        rw [hdi, ← findPage_id hfi, hrj]
      have hlenle := chain_length_le hpre
      have hf1 : 0 < fuel := by
        simp only [List.length_append, List.length_singleton] at hlenle
        omega
      match fuel, hf1 with
      | f + 1, _ =>
          have hdk : d ∈ childrenOf ps j := by
            rw [childrenOf, List.mem_filter]
            exact ⟨hd, by simp [hdp]⟩
          have hflags : ∀ c ∈ childrenOf ps j, (cascadeRun ps f c.id).2 = false := by
            intro c hc
            have hcps : c ∈ ps := List.mem_of_mem_filter hc
            have hcp : c.parent_id = some j := by simpa using List.of_mem_filter hc
            have hchc : Chain ps (some c.id) ((l1 ++ [rj]) ++ [c]) :=
              Chain.cons (findPage_of_mem hnd hcps) (by rw [hcp]; exact hpre)
            refine cascadeRun_no_overflow (fun x hx => findPage_of_mem hnd hx) f hchc ?_
            simp only [List.length_append, List.length_singleton] at hlen ⊢
            omega
          exact ⟨_, (cascadeKids_mem_intro ps j (cascadeRun ps f)
            (childrenOf ps j) hflags d hdk).1⟩
  | c1 :: l2x, fuel, j, rj, l1, hrj, hpre, d, hd, hfull, hlen => by
      have hc1p : c1.parent_id = some rj.id :=
        chain_links hfull l1 rj c1 l2x (by simp)
      have hc1ps : c1 ∈ ps := chain_subset hfull c1 (by simp)
      have hpre2 : Chain ps (some c1.id) ((l1 ++ [rj]) ++ [c1]) :=
        Chain.cons (findPage_of_mem hnd hc1ps) (by rw [hc1p, hrj]; exact hpre)
      have hlen2le := chain_length_le hfull
      have hf1 : 0 < fuel := by
        simp only [List.length_append, List.length_singleton, List.length_cons]
          at hlen2le
        omega
      match fuel, hf1 with
      | f + 1, _ =>
          have ih := cascadeRun_complete hnd l2x f c1.id c1 (l1 ++ [rj]) rfl hpre2 d hd
            (by simpa using hfull)
            (by simp only [List.length_append, List.length_singleton]; omega)
          rcases ih with ⟨pa, hpa⟩
          have hkid : c1 ∈ childrenOf ps j := by
            rw [childrenOf, List.mem_filter]
            refine ⟨hc1ps, by simp [hc1p, hrj]⟩
          have hflags : ∀ c ∈ childrenOf ps j, (cascadeRun ps f c.id).2 = false := by
            intro c hc
            have hcps : c ∈ ps := List.mem_of_mem_filter hc
            have hcp : c.parent_id = some j := by simpa using List.of_mem_filter hc
            have hchc : Chain ps (some c.id) ((l1 ++ [rj]) ++ [c]) :=
              Chain.cons (findPage_of_mem hnd hcps) (by rw [hcp]; exact hpre)
            refine cascadeRun_no_overflow (fun x hx => findPage_of_mem hnd hx) f hchc ?_
            simp only [List.length_append, List.length_singleton] at hlen ⊢
            omega
          exact ⟨pa, (cascadeKids_mem_intro ps j (cascadeRun ps f)
            (childrenOf ps j) hflags c1 hkid).2 _ hpa⟩

/-! ## The main page UPDATE as a table surgery -/

/-- Row-wise effect of the main UPDATE pages SET title, parent_id, path
statement of the PUT route. -/
def pageUpd (pid : Nat) (nt : String) (v : Option Nat) (np : String) (p : Page) : Page :=
  if p.id = pid then { p with title := nt, parent_id := v, path := np } else p

theorem pageUpd_id (pid : Nat) (nt : String) (v : Option Nat) (np : String) (p : Page) :
    (pageUpd pid nt v np p).id = p.id := by
  unfold pageUpd
  split <;> rfl

theorem pageUpd_skip (pid : Nat) (nt : String) (v : Option Nat) (np : String) (p : Page)
    (h : p.id ≠ pid) : pageUpd pid nt v np p = p := by
  unfold pageUpd
  rw [if_neg h]

theorem pageUpd_parent_hit (pid : Nat) (nt : String) (v : Option Nat) (np : String)
    (p : Page) (h : p.id = pid) : (pageUpd pid nt v np p).parent_id = v := by
  unfold pageUpd
  rw [if_pos h]

theorem retarget_pages (db : Db) (pid : Nat) (nt : String) (v : Option Nat) (np : String) :
    (applyStoreOp db (StoreOp.updPage pid nt v np)).pages =
      db.pages.map (pageUpd pid nt v np) := rfl

theorem retarget_ids (ps : List Page) (pid : Nat) (nt : String) (v : Option Nat)
    (np : String) : (ps.map (pageUpd pid nt v np)).map Page.id = ps.map Page.id := by
  rw [List.map_map]
  exact list_map_ext _ _ ps (fun a _ => pageUpd_id pid nt v np a)

theorem retarget_find (ps : List Page) (pid : Nat) (nt : String) (v : Option Nat)
    (np : String) (x : Nat) :
    findPage (ps.map (pageUpd pid nt v np)) x =
      (findPage ps x).map (pageUpd pid nt v np) :=
  findPage_map (pageUpd_id pid nt v np) x

theorem retarget_fix_chain {ps : List Page} (hnd : (ps.map Page.id).Nodup)
    (pid : Nat) (nt : String) (v : Option Nat) (np : String)
    {o : Option Nat} {l : List Page} (hch : Chain ps o l)
    (hl : ∀ r ∈ l, r.id ≠ pid) :
    Chain (ps.map (pageUpd pid nt v np)) o l := by
  refine chain_frame hch ?_
  intro r hr
  rw [retarget_find, findPage_of_mem hnd (chain_subset hch r hr)]
  show some (pageUpd pid nt v np r) = some r
  rw [pageUpd_skip _ _ _ _ _ (hl r hr)]

theorem retarget_new_chain {ps : List Page} (hnd : (ps.map Page.id).Nodup)
    {pid : Nat} {nt : String} {v : Option Nat} {np : String} {page : Page}
    (hpg : findPage ps pid = some page) {cv : List Page}
    (hcv : Chain ps v cv) (hnotin : ∀ r ∈ cv, r.id ≠ pid) :
    Chain (ps.map (pageUpd pid nt v np)) (some pid)
      (cv ++ [pageUpd pid nt v np page]) := by
  refine Chain.cons ?_ ?_
  · rw [retarget_find, hpg]
    rfl
  · rw [pageUpd_parent_hit pid nt v np page (findPage_id hpg)]
    exact retarget_fix_chain hnd pid nt v np hcv hnotin

theorem retarget_rooted {ps : List Page} (hnd : (ps.map Page.id).Nodup)
    (hroot : ∀ q ∈ ps, ∃ l, Chain ps q.parent_id l)
    {pid : Nat} {nt : String} {v : Option Nat} {np : String} {page : Page}
    (hpg : findPage ps pid = some page) {cv : List Page}
    (hcv : Chain ps v cv) (hnotin : ∀ r ∈ cv, r.id ≠ pid) :
    ∀ y ∈ ps.map (pageUpd pid nt v np), ∃ l,
      Chain (ps.map (pageUpd pid nt v np)) y.parent_id l := by
  intro y' hy'
  rcases List.mem_map.mp hy' with ⟨y, hy, rfl⟩
  by_cases hyid : y.id = pid
  · refine ⟨cv, ?_⟩
    rw [pageUpd_parent_hit pid nt v np y hyid]
    exact retarget_fix_chain hnd pid nt v np hcv hnotin
  · rw [pageUpd_skip _ _ _ _ _ hyid]
    rcases hroot y hy with ⟨ly, hly⟩
    by_cases hmem : pid ∈ ly.map Page.id
    · rcases List.mem_map.mp hmem with ⟨w, hw, hwid⟩
      have hwpage : w = page :=
        eq_of_mem_of_id_eq hnd (chain_subset hly w hw) (findPage_mem hpg)
          (by rw [hwid, ← findPage_id hpg])
      subst hwpage
      rcases chain_mem_chain hly hw with ⟨a, b, hdecomp, _⟩
      have hN : Chain (ps.map (pageUpd pid nt v np)) (some pid)
          (cv ++ [pageUpd pid nt v np w]) :=
        retarget_new_chain hnd hpg hcv hnotin
      have hwb : w ∉ b := by
        have hnd2 := chain_nodup hly
        rw [hdecomp] at hnd2
        have hnd3 : ((a ++ [w]) ++ b).Nodup := by simpa using hnd2
        have hdisj := List.disjoint_of_nodup_append hnd3
        intro hb
        exact hdisj (List.mem_append.mpr (Or.inr (List.mem_singleton.mpr rfl))) hb
      refine ⟨(cv ++ [pageUpd pid nt v np w]) ++ b, ?_⟩
      refine @chain_graft _ _ _ hN ps b y.parent_id a w (by rw [findPage_id hpg]) ?_ ?_
      · rw [hdecomp] at hly
        simpa using hly
      · intro r hr
        have hrly : r ∈ ly := by
          rw [hdecomp]
          simp only [List.mem_append, List.mem_singleton]
          exact Or.inr hr
        have hrid : r.id ≠ pid := by
          intro hc
          have hrw : r = w :=
            eq_of_mem_of_id_eq hnd (chain_subset hly r hrly) (findPage_mem hpg)
              (by rw [hc, ← findPage_id hpg])
          exact hwb (hrw ▸ hr)
        rw [retarget_find, findPage_of_mem hnd (chain_subset hly r hrly)]
        show some (pageUpd pid nt v np r) = some r
        rw [pageUpd_skip _ _ _ _ _ hrid]
    · refine ⟨ly, retarget_fix_chain hnd pid nt v np hly ?_⟩
      intro r hr hrid
      exact hmem (List.mem_map.mpr ⟨r, hr, hrid⟩)

theorem retarget_pok {ps : List Page}
    (hpok : ∀ q ∈ ps, ∀ j, q.parent_id = some j → (findPage ps j).isSome = true)
    {pid : Nat} {nt : String} {v : Option Nat} {np : String}
    (hv : v = none ∨ ∃ k, v = some k ∧ (findPage ps k).isSome = true) :
    ∀ q ∈ ps.map (pageUpd pid nt v np), ∀ j, q.parent_id = some j →
      (findPage (ps.map (pageUpd pid nt v np)) j).isSome = true := by
  intro q' hq' j hj
  rw [retarget_find]
  rcases List.mem_map.mp hq' with ⟨q, hq, rfl⟩
  by_cases hqid : q.id = pid
  · rw [pageUpd_parent_hit pid nt v np q hqid] at hj
    rcases hv with rfl | ⟨k, hk, hks⟩
    · cases hj
    · rw [hk] at hj
      injection hj with hj
      rw [← hj]
      rcases Option.isSome_iff_exists.mp hks with ⟨r, hr⟩
      rw [hr]
      rfl
  · rw [pageUpd_skip _ _ _ _ _ hqid] at hj
    rcases Option.isSome_iff_exists.mp (hpok q hq j hj) with ⟨r, hr⟩
    rw [hr]
    rfl

theorem retarget_zl {ps : List Page} (hzl : ∀ r ∈ ps, r.parent_id ≠ some 0)
    {pid : Nat} {nt : String} {v : Option Nat} {np : String} (hv0 : v ≠ some 0) :
    ∀ r ∈ ps.map (pageUpd pid nt v np), r.parent_id ≠ some 0 := by
  intro r' hr'
  rcases List.mem_map.mp hr' with ⟨r, hr, rfl⟩
  by_cases hrid : r.id = pid
  · rw [pageUpd_parent_hit pid nt v np r hrid]
    exact hv0
  · rw [pageUpd_skip _ _ _ _ _ hrid]
    exact hzl r hr

/-! ## The path invariant -/

/-- The invariant of claim 1, restricted as the amended claim requires:
a well-formed pages table in which no page hangs off the sentinel id 0,
ids stay below the id counter, and every row's stored path is the
specification breadcrumb. -/
def pathInv (db : Db) : Prop :=
  pagesWfB db.pages = true ∧
  (∀ p ∈ db.pages, p.parent_id ≠ some 0) ∧
  (∀ p ∈ db.pages, p.id < db.nextPageId) ∧
  (∀ p ∈ db.pages, p.path = specPath db.pages p)

theorem append_fresh_inv {db : Db} (hInv : pathInv db) (t : String)
    (pid' : Option Nat) (cs : List Cell) (nc : Nat) (pa : String)
    (hv0 : pid' ≠ some 0)
    (hvr : pid' = none ∨ ∃ k, pid' = some k ∧ (findPage db.pages k).isSome = true)
    (hlv : ∃ lv, Chain db.pages pid' lv ∧
      pa = joinSep " > " (lv.map Page.title ++ [t])) :
    pathInv ⟨db.pages ++ [⟨db.nextPageId, t, pid', pa⟩], cs, db.nextPageId + 1, nc⟩ := by
  rcases hInv with ⟨hwf, hzl, hbound, hpaths⟩
  have hnd := nodup_of_wfB hwf
  have hpok := parentsOk_of_wfB hwf
  have hroot := rooted_of_wfB hwf
  rcases hlv with ⟨lv, hlv, hpa⟩
  have hfresh : db.nextPageId ∉ db.pages.map Page.id := by
    intro hmem
    rcases List.mem_map.mp hmem with ⟨q, hq, hqid⟩
    have := hbound q hq
    omega
  have hagree : ∀ r ∈ db.pages,
      findPage (db.pages ++ [(⟨db.nextPageId, t, pid', pa⟩ : Page)]) r.id = some r :=
    fun r hr => findPage_append_left (findPage_of_mem hnd hr)
  have hframe : ∀ {o : Option Nat} {l : List Page}, Chain db.pages o l →
      Chain (db.pages ++ [(⟨db.nextPageId, t, pid', pa⟩ : Page)]) o l :=
    fun h => chain_frame h (fun r hr => hagree r (chain_subset h r hr))
  have hnd2 : ((db.pages ++ [(⟨db.nextPageId, t, pid', pa⟩ : Page)]).map Page.id).Nodup := by
    rw [List.map_append, List.nodup_append]
    refine ⟨hnd, by simp, ?_⟩
    intro x hx hx2
    simp only [List.map_cons, List.map_nil, List.mem_singleton] at hx2
    exact hfresh (hx2 ▸ hx)
  have hpok2 : ∀ q ∈ (db.pages ++ [(⟨db.nextPageId, t, pid', pa⟩ : Page)]), ∀ j,
      q.parent_id = some j →
      (findPage (db.pages ++ [(⟨db.nextPageId, t, pid', pa⟩ : Page)]) j).isSome = true := by
    intro q hq j hj
    rcases List.mem_append.mp hq with hq | hq
    · rcases Option.isSome_iff_exists.mp (hpok q hq j hj) with ⟨w, hw⟩
      rw [findPage_append_left hw]
      rfl
    · rcases List.mem_singleton.mp hq with rfl
      have hj2 : pid' = some j := hj
      rcases hvr with hnone | ⟨k, hk, hks⟩
      · rw [hnone] at hj2
        cases hj2
      · rw [hk] at hj2
        injection hj2 with hj2
        subst hj2
        rcases Option.isSome_iff_exists.mp hks with ⟨w, hw⟩
        rw [findPage_append_left hw]
        rfl
  have hroot2 : ∀ q ∈ (db.pages ++ [(⟨db.nextPageId, t, pid', pa⟩ : Page)]), ∃ l,
      Chain (db.pages ++ [(⟨db.nextPageId, t, pid', pa⟩ : Page)]) q.parent_id l := by
    intro q hq
    rcases List.mem_append.mp hq with hq | hq
    · rcases hroot q hq with ⟨l, hl⟩
      exact ⟨l, hframe hl⟩
    · rcases List.mem_singleton.mp hq with rfl
      exact ⟨lv, hframe hlv⟩
  have hzl2 : ∀ r ∈ (db.pages ++ [(⟨db.nextPageId, t, pid', pa⟩ : Page)]),
      r.parent_id ≠ some 0 := by
    intro r hr
    rcases List.mem_append.mp hr with hr | hr
    · exact hzl r hr
    · rcases List.mem_singleton.mp hr with rfl
      exact hv0
  refine ⟨wfB_intro hnd2 hpok2 hroot2, hzl2, ?_, ?_⟩
  · intro p hp
    rcases List.mem_append.mp hp with hp | hp
    · have := hbound p hp
      show p.id < db.nextPageId + 1
      omega
    · rcases List.mem_singleton.mp hp with rfl
      show db.nextPageId < db.nextPageId + 1
      omega
  · intro p hp
    rcases List.mem_append.mp hp with hp | hp
    · rcases hroot p hp with ⟨lp, hlp⟩
      have hsp : specPath (db.pages ++ [(⟨db.nextPageId, t, pid', pa⟩ : Page)]) p =
          joinSep " > " (lp.map Page.title ++ [p.title]) := by
        unfold specPath
        rw [chainRows_of_chain (hframe hlp)
          (le_trans (chain_length_le hlp) (by simp))]
        rfl
      have hsp2 : specPath db.pages p = joinSep " > " (lp.map Page.title ++ [p.title]) := by
        unfold specPath
        rw [chainRows_of_chain hlp (chain_length_le hlp)]
        rfl
      rw [hsp, ← hsp2]
      exact hpaths p hp
    · rcases List.mem_singleton.mp hp with rfl
      show pa = _
      unfold specPath
      rw [chainRows_of_chain (hframe hlv)
        (le_trans (chain_length_le hlv) (by simp))]
      simpa using hpa

/-- createPage preserves the path invariant. -/
theorem createPage_inv {db : Db} {t : String} {par : Option Nat} {r : Page × Db}
    (hInv : pathInv db) (h : createPage db t par = Except.ok r) : pathInv r.2 := by
  have hzl := hInv.2.1
  have hroot := rooted_of_wfB hInv.1
  unfold createPage at h
  by_cases htr : jsTrim t = ""
  · rw [if_pos htr] at h
    cases h
  · rw [if_neg htr] at h
    by_cases htru : truthy par = true
    · rcases par with _ | k
      · simp [truthy] at htru
      · have hk0 : k ≠ 0 := by simpa [truthy] using htru
        rw [htru] at h
        dsimp only at h
        by_cases hfk : (findPage db.pages k).isSome = true
        · rw [if_neg (by simp [hfk])] at h
          injection h with h
          rw [← h]
          refine append_fresh_inv hInv t (some k) _ _ _
            (by simpa using hk0) (Or.inr ⟨k, rfl, hfk⟩) ?_
          rcases Option.isSome_iff_exists.mp hfk with ⟨rk, hrk⟩
          rcases hroot rk (findPage_mem hrk) with ⟨lk, hlk⟩
          refine ⟨lk ++ [rk], Chain.cons hrk hlk, ?_⟩
          have hbs := buildPath_spec hzl (Chain.cons hrk hlk) (Or.inr ⟨k, rfl, hk0⟩) t
          rw [htru] at hbs
          simpa using hbs
        · rw [if_pos (by simp [hfk])] at h
          cases h
    · have hft : truthy par = false := by
        cases hx : truthy par
        · rfl
        · exact absurd hx htru
      rw [hft] at h
      dsimp only at h
      injection h with h
      rw [← h]
      refine append_fresh_inv hInv t none _ _ _ (by simp) (Or.inl rfl) ?_
      refine ⟨[], Chain.nil, ?_⟩
      rcases par with _ | k
      · rw [buildPath, buildParts_none]
        rfl
      · have hkz : k = 0 := by
          by_contra hkz
          rw [truthy] at hft
          simp [hkz] at hft
        subst hkz
        rw [buildPath, buildParts_some_zero]
        rfl

/-! ## An accepted PUT preserves the path invariant (table level) -/

theorem put_accept_tables {ps : List Page} (pid : Nat) (nt : String) (v : Option Nat)
    (np : String)
    (hwf : pagesWfB ps = true)
    (hzl : ∀ r ∈ ps, r.parent_id ≠ some 0)
    (hpaths : ∀ p ∈ ps, p.path = specPath ps p)
    {page : Page} (hpg : findPage ps pid = some page)
    (hv : v = none ∨ ∃ k, v = some k ∧ k ≠ 0 ∧ (findPage ps k).isSome = true)
    (hcv : ∀ l, Chain ps v l → pid ∉ l.map Page.id)
    (hnp : np = buildPath (ps.length + 1) ps v ++
      (if truthy v then " > " else "") ++ nt) :
    (cascadeRun (List.map (pageUpd pid nt v np) ps) ((List.map (pageUpd pid nt v np) ps).length + 1) pid).2 = false ∧
    pagesWfB (List.map (opsPage (cascadeRun (List.map (pageUpd pid nt v np) ps) ((List.map (pageUpd pid nt v np) ps).length + 1) pid).1) (List.map (pageUpd pid nt v np) ps)) = true ∧
    (∀ r ∈ (List.map (opsPage (cascadeRun (List.map (pageUpd pid nt v np) ps) ((List.map (pageUpd pid nt v np) ps).length + 1) pid).1) (List.map (pageUpd pid nt v np) ps)), r.parent_id ≠ some 0) ∧
    (List.map (opsPage (cascadeRun (List.map (pageUpd pid nt v np) ps) ((List.map (pageUpd pid nt v np) ps).length + 1) pid).1) (List.map (pageUpd pid nt v np) ps)).map Page.id = ps.map Page.id ∧
    ∀ p ∈ (List.map (opsPage (cascadeRun (List.map (pageUpd pid nt v np) ps) ((List.map (pageUpd pid nt v np) ps).length + 1) pid).1) (List.map (pageUpd pid nt v np) ps)), p.path = specPath (List.map (opsPage (cascadeRun (List.map (pageUpd pid nt v np) ps) ((List.map (pageUpd pid nt v np) ps).length + 1) pid).1) (List.map (pageUpd pid nt v np) ps)) p := by
  have hnd := nodup_of_wfB hwf
  have hpok := parentsOk_of_wfB hwf
  have hroot := rooted_of_wfB hwf
  have hpmem := findPage_mem hpg
  have hpid := findPage_id hpg
  have hv0 : v ≠ some 0 := by
    rcases hv with rfl | ⟨k, rfl, hk0, _⟩
    · simp
    · simpa using hk0
  have hvshape : v = none ∨ ∃ k, v = some k ∧ k ≠ 0 := by
    rcases hv with rfl | ⟨k, rfl, hk0, _⟩
    · exact Or.inl rfl
    · exact Or.inr ⟨k, rfl, hk0⟩
  have hcvx : ∃ cvl, Chain ps v cvl := by
    rcases hv with rfl | ⟨k, rfl, _, hks⟩
    · exact ⟨[], Chain.nil⟩
    · rcases Option.isSome_iff_exists.mp hks with ⟨rk, hrk⟩
      rcases hroot rk (findPage_mem hrk) with ⟨lk, hlk⟩
      exact ⟨lk ++ [rk], Chain.cons hrk hlk⟩
  rcases hcvx with ⟨cv, hcvc⟩
  have hnotin : ∀ r ∈ cv, r.id ≠ pid := by
    intro r hr hrid
    exact hcv cv hcvc (List.mem_map.mpr ⟨r, hr, hrid⟩)
  have hnd1 : ((List.map (pageUpd pid nt v np) ps).map Page.id).Nodup := by
    rw [retarget_ids]
    exact hnd
  have hpok1 : ∀ q ∈ (List.map (pageUpd pid nt v np) ps), ∀ j, q.parent_id = some j →
      (findPage (List.map (pageUpd pid nt v np) ps) j).isSome = true := by
    refine retarget_pok hpok ?_
    rcases hv with rfl | ⟨k, rfl, _, hks⟩
    · exact Or.inl rfl
    · exact Or.inr ⟨k, rfl, hks⟩
  have hroot1 : ∀ y ∈ (List.map (pageUpd pid nt v np) ps), ∃ l, Chain (List.map (pageUpd pid nt v np) ps) y.parent_id l :=
    retarget_rooted hnd hroot hpg hcvc hnotin
  have hzl1 : ∀ r ∈ (List.map (pageUpd pid nt v np) ps), r.parent_id ≠ some 0 := retarget_zl hzl hv0
  have hcv1 : Chain (List.map (pageUpd pid nt v np) ps) v cv := retarget_fix_chain hnd pid nt v np hcvc hnotin
  have hN : Chain (List.map (pageUpd pid nt v np) ps) (some pid) (cv ++ [pageUpd pid nt v np page]) :=
    retarget_new_chain hnd hpg hcvc hnotin
  have hnoov : (cascadeRun (List.map (pageUpd pid nt v np) ps) ((List.map (pageUpd pid nt v np) ps).length + 1) pid).2 = false :=
    cascadeRun_no_overflow (fun c hc => findPage_of_mem hnd1 hc) ((List.map (pageUpd pid nt v np) ps).length + 1) hN
      (by omega)
  have hall : ∀ op ∈ (cascadeRun (List.map (pageUpd pid nt v np) ps) ((List.map (pageUpd pid nt v np) ps).length + 1) pid).1, isPathStmt op = true :=
    cascadeRun_pathops (List.map (pageUpd pid nt v np) ps) ((List.map (pageUpd pid nt v np) ps).length + 1) pid
  have hsound := cascadeRun_sound hnd1 ((List.map (pageUpd pid nt v np) ps).length + 1) pid _ hN
  have hHid : ∀ p, ((opsPage (cascadeRun (List.map (pageUpd pid nt v np) ps) ((List.map (pageUpd pid nt v np) ps).length + 1) pid).1) p).id = p.id := opsPage_id (cascadeRun (List.map (pageUpd pid nt v np) ps) ((List.map (pageUpd pid nt v np) ps).length + 1) pid).1
  have hHfields := opsPage_fields (cascadeRun (List.map (pageUpd pid nt v np) ps) ((List.map (pageUpd pid nt v np) ps).length + 1) pid).1 hall
  have hUmem : pageUpd pid nt v np page ∈ (List.map (pageUpd pid nt v np) ps) := List.mem_map_of_mem _ hpmem
  have hUid : (pageUpd pid nt v np page).id = pid := by rw [pageUpd_id, hpid]
  have hnotpid : ∀ op ∈ (cascadeRun (List.map (pageUpd pid nt v np) ps) ((List.map (pageUpd pid nt v np) ps).length + 1) pid).1,
      opTargets op (pageUpd pid nt v np page).id = false := by
    intro op hop
    rcases hsound op hop with ⟨c, hc, rfl, lc, hlc, hcid⟩
    rw [hUid]
    simp only [opTargets, decide_eq_false_iff_not]
    intro hcpid
    have hceq : c = pageUpd pid nt v np page :=
      eq_of_mem_of_id_eq hnd1 hc hUmem (by rw [hcpid, hUid])
    rw [hceq, pageUpd_parent_hit pid nt v np page hpid] at hlc
    have hlcv : lc = cv := chain_unique hlc hcv1
    rw [hlcv] at hcid
    rcases List.mem_map.mp hcid with ⟨w, hw, hwid⟩
    exact hnotin w hw hwid
  have hFids : (List.map (opsPage (cascadeRun (List.map (pageUpd pid nt v np) ps) ((List.map (pageUpd pid nt v np) ps).length + 1) pid).1) (List.map (pageUpd pid nt v np) ps)).map Page.id = ps.map Page.id := by
    rw [List.map_map]
    have h1 : (List.map (pageUpd pid nt v np) ps).map (Page.id ∘ (opsPage (cascadeRun (List.map (pageUpd pid nt v np) ps) ((List.map (pageUpd pid nt v np) ps).length + 1) pid).1)) = (List.map (pageUpd pid nt v np) ps).map Page.id :=
      list_map_ext _ _ (List.map (pageUpd pid nt v np) ps) (fun a _ => hHid a)
    rw [h1, retarget_ids]
  have hnd2 : ((List.map (opsPage (cascadeRun (List.map (pageUpd pid nt v np) ps) ((List.map (pageUpd pid nt v np) ps).length + 1) pid).1) (List.map (pageUpd pid nt v np) ps)).map Page.id).Nodup := by
    rw [hFids]
    exact hnd
  have hFfind : ∀ x, findPage (List.map (opsPage (cascadeRun (List.map (pageUpd pid nt v np) ps) ((List.map (pageUpd pid nt v np) ps).length + 1) pid).1) (List.map (pageUpd pid nt v np) ps)) x = (findPage (List.map (pageUpd pid nt v np) ps) x).map (opsPage (cascadeRun (List.map (pageUpd pid nt v np) ps) ((List.map (pageUpd pid nt v np) ps).length + 1) pid).1) :=
    fun x => findPage_map hHid x
  have hFchain : ∀ {o : Option Nat} {l : List Page}, Chain (List.map (pageUpd pid nt v np) ps) o l →
      Chain (List.map (opsPage (cascadeRun (List.map (pageUpd pid nt v np) ps) ((List.map (pageUpd pid nt v np) ps).length + 1) pid).1) (List.map (pageUpd pid nt v np) ps)) o (l.map (opsPage (cascadeRun (List.map (pageUpd pid nt v np) ps) ((List.map (pageUpd pid nt v np) ps).length + 1) pid).1)) :=
    fun h => chain_map hHid (fun p => (hHfields p).2) h
  have hFlen : (List.map (opsPage (cascadeRun (List.map (pageUpd pid nt v np) ps) ((List.map (pageUpd pid nt v np) ps).length + 1) pid).1) (List.map (pageUpd pid nt v np) ps)).length = ps.length := by simp
  have hpok2 : ∀ q ∈ (List.map (opsPage (cascadeRun (List.map (pageUpd pid nt v np) ps) ((List.map (pageUpd pid nt v np) ps).length + 1) pid).1) (List.map (pageUpd pid nt v np) ps)), ∀ j, q.parent_id = some j →
      (findPage (List.map (opsPage (cascadeRun (List.map (pageUpd pid nt v np) ps) ((List.map (pageUpd pid nt v np) ps).length + 1) pid).1) (List.map (pageUpd pid nt v np) ps)) j).isSome = true := by
    intro q hq j hj
    rcases List.mem_map.mp hq with ⟨q1, hq1, rfl⟩
    rw [(hHfields q1).2] at hj
    rw [hFfind]
    rcases Option.isSome_iff_exists.mp (hpok1 q1 hq1 j hj) with ⟨w, hw⟩
    rw [hw]
    rfl
  have hroot2 : ∀ q ∈ (List.map (opsPage (cascadeRun (List.map (pageUpd pid nt v np) ps) ((List.map (pageUpd pid nt v np) ps).length + 1) pid).1) (List.map (pageUpd pid nt v np) ps)), ∃ l, Chain (List.map (opsPage (cascadeRun (List.map (pageUpd pid nt v np) ps) ((List.map (pageUpd pid nt v np) ps).length + 1) pid).1) (List.map (pageUpd pid nt v np) ps)) q.parent_id l := by
    intro q hq
    rcases List.mem_map.mp hq with ⟨q1, hq1, rfl⟩
    rcases hroot1 q1 hq1 with ⟨l1, hl1⟩
    refine ⟨l1.map (opsPage (cascadeRun (List.map (pageUpd pid nt v np) ps) ((List.map (pageUpd pid nt v np) ps).length + 1) pid).1), ?_⟩
    rw [(hHfields q1).2]
    exact hFchain hl1
  have hzl2 : ∀ r ∈ (List.map (opsPage (cascadeRun (List.map (pageUpd pid nt v np) ps) ((List.map (pageUpd pid nt v np) ps).length + 1) pid).1) (List.map (pageUpd pid nt v np) ps)), r.parent_id ≠ some 0 := by
    intro r hr
    rcases List.mem_map.mp hr with ⟨r1, hr1, rfl⟩
    rw [(hHfields r1).2]
    exact hzl1 r1 hr1
  refine ⟨hnoov, wfB_intro hnd2 hpok2 hroot2, hzl2, hFids, ?_⟩
  intro p hp
  rcases List.mem_map.mp hp with ⟨p1, hp1, rfl⟩
  rcases List.mem_map.mp hp1 with ⟨y, hy, rfl⟩
  by_cases hyid : y.id = pid
  · have hypage : y = page := eq_of_mem_of_id_eq hnd hy hpmem (by rw [hyid, hpid])
    subst hypage
    rw [opsPage_skip (cascadeRun (List.map (pageUpd pid nt v np) ps) ((List.map (pageUpd pid nt v np) ps).length + 1) pid).1 _ hnotpid]
    have hUpath : (pageUpd pid nt v np y).path = np := by
      unfold pageUpd
      rw [if_pos hpid]
    have hUtitle : (pageUpd pid nt v np y).title = nt := by
      unfold pageUpd
      rw [if_pos hpid]
    have hUpar := pageUpd_parent_hit pid nt v np y hpid
    rw [hUpath]
    unfold specPath
    rw [hUpar, hUtitle]
    have hlencv : (cv.map (opsPage (cascadeRun (List.map (pageUpd pid nt v np) ps) ((List.map (pageUpd pid nt v np) ps).length + 1) pid).1)).length ≤ (List.map (opsPage (cascadeRun (List.map (pageUpd pid nt v np) ps) ((List.map (pageUpd pid nt v np) ps).length + 1) pid).1) (List.map (pageUpd pid nt v np) ps)).length := by
      rw [hFlen, List.length_map]
      exact chain_length_le hcvc
    rw [chainRows_of_chain (hFchain hcv1) hlencv]
    simp only [Option.getD_some]
    have htl : (cv.map (opsPage (cascadeRun (List.map (pageUpd pid nt v np) ps) ((List.map (pageUpd pid nt v np) ps).length + 1) pid).1)).map Page.title = cv.map Page.title := by
      rw [List.map_map]
      exact list_map_ext _ _ cv (fun a _ => (hHfields a).1)
    rw [htl, hnp]
    exact buildPath_spec hzl hcvc hvshape nt
  · have hUskip : pageUpd pid nt v np y = y := pageUpd_skip _ _ _ _ _ hyid
    rw [hUskip]
    have hy1 : y ∈ (List.map (pageUpd pid nt v np) ps) := by
      rw [← hUskip]
      exact List.mem_map_of_mem _ hy
    rcases hroot1 y hy1 with ⟨Ly1, hLy1⟩
    by_cases hdesc : pid ∈ Ly1.map Page.id
    · rcases List.mem_map.mp hdesc with ⟨w, hw, hwid⟩
      rcases chain_mem_chain hLy1 hw with ⟨a, b, hdec, hpre⟩
      have hpre2 : Chain (List.map (pageUpd pid nt v np) ps) (some pid) (a ++ [w]) :=
        hwid ▸ hpre
      have hfull : Chain (List.map (pageUpd pid nt v np) ps) y.parent_id ((a ++ [w]) ++ b) := by
        rw [hdec] at hLy1
        exact hLy1
      have hLy1b : Chain (List.map (pageUpd pid nt v np) ps) y.parent_id Ly1 := by
        rw [hdec]
        exact hfull
      have hcompl := cascadeRun_complete hnd1 b ((List.map (pageUpd pid nt v np) ps).length + 1) pid w a hwid hpre2
        y hy1 hfull (by omega)
      rcases hcompl with ⟨pa, hpa⟩
      have hparjy : ∃ jy, y.parent_id = some jy := by
        cases hyp : y.parent_id with
        | some jy => exact ⟨jy, rfl⟩
        | none =>
            rw [hyp] at hLy1b
            have hnil := chain_none_inv hLy1b
            rw [hnil] at hdec
            simp at hdec
      rcases hparjy with ⟨jy, hjy⟩
      have hjy0 : jy ≠ 0 := fun hz => hzl1 y hy1 (by rw [hjy, hz])
      have hLyjy : Chain (List.map (pageUpd pid nt v np) ps) (some jy) Ly1 := by
        rw [← hjy]
        exact hLy1b
      have hval : (opsPage (cascadeRun (List.map (pageUpd pid nt v np) ps) ((List.map (pageUpd pid nt v np) ps).length + 1) pid).1 y).path =
          buildPath ((List.map (pageUpd pid nt v np) ps).length + 1) (List.map (pageUpd pid nt v np) ps) y.parent_id ++ " > " ++ y.title := by
        refine opsPage_path_value (cascadeRun (List.map (pageUpd pid nt v np) ps) ((List.map (pageUpd pid nt v np) ps).length + 1) pid).1 y _ hall ?_ ⟨pa, hpa⟩
        intro i pa2 hmem hiy
        rcases hsound _ hmem with ⟨c, hc, heq, _⟩
        injection heq with h1 h2
        have hcy : c = y := eq_of_mem_of_id_eq hnd1 hc hy1 (by rw [← h1, hiy])
        rw [h2, hcy]
      rw [hval]
      unfold specPath
      rw [(hHfields y).2, (hHfields y).1, hjy]
      have hlenLy : (Ly1.map (opsPage (cascadeRun (List.map (pageUpd pid nt v np) ps) ((List.map (pageUpd pid nt v np) ps).length + 1) pid).1)).length ≤ (List.map (opsPage (cascadeRun (List.map (pageUpd pid nt v np) ps) ((List.map (pageUpd pid nt v np) ps).length + 1) pid).1) (List.map (pageUpd pid nt v np) ps)).length := by
        rw [hFlen, List.length_map]
        have h1 : Ly1.length ≤ (List.map (pageUpd pid nt v np) ps).length := chain_length_le hLy1b
        simpa using h1
      rw [chainRows_of_chain (hFchain hLyjy) hlenLy]
      simp only [Option.getD_some]
      have htl : (Ly1.map (opsPage (cascadeRun (List.map (pageUpd pid nt v np) ps) ((List.map (pageUpd pid nt v np) ps).length + 1) pid).1)).map Page.title = Ly1.map Page.title := by
        rw [List.map_map]
        exact list_map_ext _ _ Ly1 (fun r _ => (hHfields r).1)
      rw [htl]
      have hbs := buildPath_spec hzl1 hLyjy (Or.inr ⟨jy, rfl, hjy0⟩) y.title
      have htru : truthy (some jy) = true := by simp [truthy, hjy0]
      rw [htru] at hbs
      simpa using hbs
    · have hnt2 : ∀ op ∈ (cascadeRun (List.map (pageUpd pid nt v np) ps) ((List.map (pageUpd pid nt v np) ps).length + 1) pid).1, opTargets op y.id = false := by
        intro op hop
        rcases hsound op hop with ⟨c, hc, rfl, lc, hlc, hcid⟩
        simp only [opTargets, decide_eq_false_iff_not]
        intro hcy
        have hcyeq : c = y := eq_of_mem_of_id_eq hnd1 hc hy1 hcy
        rw [hcyeq] at hlc
        have hlceq : lc = Ly1 := chain_unique hlc hLy1
        rw [hlceq] at hcid
        exact hdesc hcid
      rw [opsPage_skip (cascadeRun (List.map (pageUpd pid nt v np) ps) ((List.map (pageUpd pid nt v np) ps).length + 1) pid).1 y hnt2]
      have hchain_ps : Chain ps y.parent_id Ly1 := by
        refine chain_frame hLy1 ?_
        intro r hr
        rcases List.mem_map.mp (chain_subset hLy1 r hr) with ⟨r0, hr0, hr0e⟩
        have hrid : r.id ≠ pid := fun hc => hdesc (List.mem_map.mpr ⟨r, hr, hc⟩)
        have hr0id : r0.id ≠ pid := by
          rw [← hr0e, pageUpd_id] at hrid
          exact hrid
        have hrr0 : r = r0 := by
          rw [← hr0e, pageUpd_skip _ _ _ _ _ hr0id]
        rw [hrr0]
        exact findPage_of_mem hnd hr0
      have hsp_old : specPath ps y = joinSep " > " (Ly1.map Page.title ++ [y.title]) := by
        unfold specPath
        rw [chainRows_of_chain hchain_ps (chain_length_le hchain_ps)]
        rfl
      have hlenLy2 : (Ly1.map (opsPage (cascadeRun (List.map (pageUpd pid nt v np) ps) ((List.map (pageUpd pid nt v np) ps).length + 1) pid).1)).length ≤ (List.map (opsPage (cascadeRun (List.map (pageUpd pid nt v np) ps) ((List.map (pageUpd pid nt v np) ps).length + 1) pid).1) (List.map (pageUpd pid nt v np) ps)).length := by
        rw [hFlen, List.length_map]
        have h1 : Ly1.length ≤ (List.map (pageUpd pid nt v np) ps).length := chain_length_le hLy1
        simpa using h1
      have hsp_new : specPath (List.map (opsPage (cascadeRun (List.map (pageUpd pid nt v np) ps) ((List.map (pageUpd pid nt v np) ps).length + 1) pid).1) (List.map (pageUpd pid nt v np) ps)) y = joinSep " > " (Ly1.map Page.title ++ [y.title]) := by
        unfold specPath
        rw [chainRows_of_chain (hFchain hLy1) hlenLy2]
        simp only [Option.getD_some]
        rw [List.map_map]
        have hte : Ly1.map (Page.title ∘ opsPage (cascadeRun (List.map (pageUpd pid nt v np) ps) ((List.map (pageUpd pid nt v np) ps).length + 1) pid).1) = Ly1.map Page.title :=
          list_map_ext _ _ Ly1 (fun r _ => (hHfields r).1)
        rw [hte]
      rw [hsp_new, ← hsp_old]
      exact hpaths y hy

/-! ## Run-level preservation for the PUT route -/

theorem put_changed_run_inv (db : Db) (pid : Nat) (nt : String) (v : Option Nat)
    (np : String) (hInv : pathInv db) (page : Page)
    (hpg : findPage db.pages pid = some page)
    (hv : v = none ∨ ∃ k, v = some k ∧ k ≠ 0 ∧ (findPage db.pages k).isSome = true)
    (hcv : ∀ l, Chain db.pages v l → pid ∉ l.map Page.id)
    (hnp : np = buildPath (db.pages.length + 1) db.pages v ++
      (if truthy v then " > " else "") ++ nt) :
    pathInv (runBatches db (List.map Batch.single
      (StoreOp.updPage pid nt v np :: (cascadeRun (List.map (pageUpd pid nt v np) db.pages) ((List.map (pageUpd pid nt v np) db.pages).length + 1) pid).1))) := by
  rcases hInv with ⟨hwf, hzl, hbound, hpaths⟩
  have hmain := put_accept_tables pid nt v np hwf hzl hpaths hpg hv hcv hnp
  have hpg_pages : (runBatches db (List.map Batch.single
      (StoreOp.updPage pid nt v np :: (cascadeRun (List.map (pageUpd pid nt v np) db.pages) ((List.map (pageUpd pid nt v np) db.pages).length + 1) pid).1))).pages = (List.map (opsPage (cascadeRun (List.map (pageUpd pid nt v np) db.pages) ((List.map (pageUpd pid nt v np) db.pages).length + 1) pid).1) (List.map (pageUpd pid nt v np) db.pages)) := by
    show (runBatches (applyStoreOp db (StoreOp.updPage pid nt v np))
      (List.map Batch.single (cascadeRun (List.map (pageUpd pid nt v np) db.pages) ((List.map (pageUpd pid nt v np) db.pages).length + 1) pid).1)).pages = (List.map (opsPage (cascadeRun (List.map (pageUpd pid nt v np) db.pages) ((List.map (pageUpd pid nt v np) db.pages).length + 1) pid).1) (List.map (pageUpd pid nt v np) db.pages))
    rw [run_singles_pages]
    rfl
  have hnextP : (runBatches db (List.map Batch.single
      (StoreOp.updPage pid nt v np :: (cascadeRun (List.map (pageUpd pid nt v np) db.pages) ((List.map (pageUpd pid nt v np) db.pages).length + 1) pid).1))).nextPageId = db.nextPageId :=
    run_singles_nextP (StoreOp.updPage pid nt v np :: (cascadeRun (List.map (pageUpd pid nt v np) db.pages) ((List.map (pageUpd pid nt v np) db.pages).length + 1) pid).1) db
  refine ⟨?_, ?_, ?_, ?_⟩
  · rw [hpg_pages]
    exact hmain.2.1
  · rw [hpg_pages]
    exact hmain.2.2.1
  · rw [hpg_pages, hnextP]
    intro p hp
    have h2 : p.id ∈ (List.map (opsPage (cascadeRun (List.map (pageUpd pid nt v np) db.pages) ((List.map (pageUpd pid nt v np) db.pages).length + 1) pid).1) (List.map (pageUpd pid nt v np) db.pages)).map Page.id := List.mem_map_of_mem _ hp
    rw [hmain.2.2.2.1] at h2
    rcases List.mem_map.mp h2 with ⟨q, hq, hqe⟩
    rw [← hqe]
    exact hbound q hq
  · rw [hpg_pages]
    exact hmain.2.2.2.2

theorem put_unchanged_run_inv (db : Db) (pid : Nat) (page : Page)
    (hInv : pathInv db) (hpg : findPage db.pages pid = some page) :
    runBatches db (List.map Batch.single
      [StoreOp.updPage pid page.title page.parent_id (buildPath (db.pages.length + 1) db.pages page.parent_id ++ (if truthy page.parent_id then " > " else "") ++ page.title)]) = db := by
  rcases hInv with ⟨hwf, hzl, hbound, hpaths⟩
  have hnd := nodup_of_wfB hwf
  have hroot := rooted_of_wfB hwf
  have hpmem := findPage_mem hpg
  have hpid := findPage_id hpg
  have hshape : page.parent_id = none ∨ ∃ k, page.parent_id = some k ∧ k ≠ 0 := by
    cases hpp : page.parent_id with
    | none => exact Or.inl rfl
    | some k => exact Or.inr ⟨k, rfl, fun hz => hzl page hpmem (by rw [hpp, hz])⟩
  rcases hroot page hpmem with ⟨lp, hlp⟩
  have hbs := buildPath_spec hzl hlp hshape page.title
  have hsp : specPath db.pages page = joinSep " > " (lp.map Page.title ++ [page.title]) := by
    unfold specPath
    rw [chainRows_of_chain hlp (chain_length_le hlp)]
    rfl
  have hnp_eq : buildPath (db.pages.length + 1) db.pages page.parent_id ++
      (if truthy page.parent_id then " > " else "") ++ page.title = page.path := by
    rw [hbs, ← hsp]
    exact (hpaths page hpmem).symm
  have hmap : db.pages.map (pageUpd pid page.title page.parent_id (buildPath (db.pages.length + 1) db.pages page.parent_id ++ (if truthy page.parent_id then " > " else "") ++ page.title)) = db.pages := by
    have h1 : ∀ p ∈ db.pages, pageUpd pid page.title page.parent_id (buildPath (db.pages.length + 1) db.pages page.parent_id ++ (if truthy page.parent_id then " > " else "") ++ page.title) p = p := by
      intro p hp
      by_cases hpidp : p.id = pid
      · have hpp : p = page := eq_of_mem_of_id_eq hnd hp hpmem (by rw [hpidp, hpid])
        subst hpp
        unfold pageUpd
        rw [if_pos hpidp, hnp_eq]
      · exact pageUpd_skip _ _ _ _ _ hpidp
    rw [list_map_ext _ id db.pages (fun a ha => h1 a ha), List.map_id]
  have hstep : runBatches db (List.map Batch.single
      [StoreOp.updPage pid page.title page.parent_id (buildPath (db.pages.length + 1) db.pages page.parent_id ++ (if truthy page.parent_id then " > " else "") ++ page.title)]) =
      { db with pages := db.pages.map (pageUpd pid page.title page.parent_id (buildPath (db.pages.length + 1) db.pages page.parent_id ++ (if truthy page.parent_id then " > " else "") ++ page.title)) } := rfl
  rw [hstep, hmap]

/-- The PUT route preserves the path invariant whenever the requested parent
is not the sentinel id 0 (the restriction of the amended claim). -/
theorem putPage_inv (db : Db) (pid : Nat) (targ : Option String)
    (parg : Option (Option Nat)) (hInv : pathInv db) (hallow : parg ≠ some (some 0)) :
    pathInv (putPage db pid targ parg).2 := by
  have hwf := hInv.1
  have hzl := hInv.2.1
  have hnd := nodup_of_wfB hwf
  have hpok := parentsOk_of_wfB hwf
  show pathInv (runBatches db (putPageBatches db pid targ parg))
  cases hpg : findPage db.pages pid with
  | none =>
      unfold putPageBatches putPagePlan
      rw [hpg]
      exact hInv
  | some page =>
      have hpmem := findPage_mem hpg
      have hpid := findPage_id hpg
      have hv_par : page.parent_id = none ∨ ∃ k, page.parent_id = some k ∧ k ≠ 0 ∧
          (findPage db.pages k).isSome = true := by
        cases hpp : page.parent_id with
        | none => exact Or.inl rfl
        | some k =>
            exact Or.inr ⟨k, rfl, fun hz => hzl page hpmem (by rw [hpp, hz]),
              hpok page hpmem k hpp⟩
      have hcv_par : ∀ l, Chain db.pages page.parent_id l → pid ∉ l.map Page.id := by
        intro l hl hmem
        have hni := not_mem_chain_ids hnd hpmem hl
        rw [hpid] at hni
        exact hni hmem
      have hfko : (match page.parent_id with
          | none => true
          | some k => (findPage db.pages k).isSome) = true := by
        cases hpp : page.parent_id with
        | none => rfl
        | some k => exact hpok page hpmem k hpp
      cases parg with
      | none =>
          unfold putPageBatches putPagePlan
          rw [hpg]
          dsimp only
          by_cases htitle : jsTrim (targ.getD page.title) = ""
          · rw [if_pos htitle]
            exact hInv
          · rw [if_neg htitle, if_neg (by simp [hfko])]
            by_cases hchg : targ.getD page.title = page.title
            · rw [if_neg (by simp [hchg])]
              rw [hchg]
              rw [put_unchanged_run_inv db pid page hInv hpg]
              exact hInv
            · rw [if_pos (Or.inr hchg)]
              exact put_changed_run_inv db pid (targ.getD page.title) page.parent_id _
                hInv page hpg hv_par hcv_par rfl
      | some w =>
          by_cases hw1 : w = page.parent_id
          · subst hw1
            unfold putPageBatches putPagePlan
            rw [hpg]
            dsimp only
            by_cases htitle : jsTrim (targ.getD page.title) = ""
            · rw [if_pos htitle]
              exact hInv
            · rw [if_neg htitle, if_pos rfl, if_neg (by simp [hfko])]
              by_cases hchg : targ.getD page.title = page.title
              · rw [if_neg (by simp [hchg])]
                rw [hchg]
                rw [put_unchanged_run_inv db pid page hInv hpg]
                exact hInv
              · rw [if_pos (Or.inr hchg)]
                exact put_changed_run_inv db pid (targ.getD page.title) page.parent_id _
                  hInv page hpg hv_par hcv_par rfl
          · by_cases hw2 : w = some pid
            · subst hw2
              unfold putPageBatches putPagePlan
              rw [hpg]
              dsimp only
              by_cases htitle : jsTrim (targ.getD page.title) = ""
              · rw [if_pos htitle]
                exact hInv
              · rw [if_neg htitle, if_neg hw1, if_pos rfl]
                exact hInv
            · cases w with
              | none =>
                  unfold putPageBatches putPagePlan
                  rw [hpg]
                  dsimp only
                  by_cases htitle : jsTrim (targ.getD page.title) = ""
                  · rw [if_pos htitle]
                    exact hInv
                  · have hwalk0 : cycleWalk (db.pages.length + 1) db.pages none pid =
                        some false := rfl
                    rw [if_neg htitle, if_neg hw1, if_neg hw2, hwalk0]
                    dsimp only
                    rw [if_pos (Or.inl hw1)]
                    exact put_changed_run_inv db pid (targ.getD page.title) none _
                      hInv page hpg (Or.inl rfl)
                      (fun l hl hmem => by
                        rw [chain_none_inv hl] at hmem
                        simp at hmem) rfl
              | some k =>
                  have hk0 : k ≠ 0 := by
                    intro hz
                    subst hz
                    exact hallow rfl
                  cases hwalk : cycleWalk (db.pages.length + 1) db.pages (some k) pid with
                  | none =>
                      unfold putPageBatches putPagePlan
                      rw [hpg]
                      dsimp only
                      by_cases htitle : jsTrim (targ.getD page.title) = ""
                      · rw [if_pos htitle]
                        exact hInv
                      · rw [if_neg htitle, if_neg hw1, if_neg hw2, hwalk]
                        exact hInv
                  | some b =>
                      cases b with
                      | true =>
                          unfold putPageBatches putPagePlan
                          rw [hpg]
                          dsimp only
                          by_cases htitle : jsTrim (targ.getD page.title) = ""
                          · rw [if_pos htitle]
                            exact hInv
                          · rw [if_neg htitle, if_neg hw1, if_neg hw2, hwalk]
                            exact hInv
                      | false =>
                          by_cases hfk2 : (findPage db.pages k).isSome = true
                          · have hcvk : ∀ l, Chain db.pages (some k) l →
                                pid ∉ l.map Page.id := by
                              intro l hl hmem
                              have hwd := cycleWalk_detects hzl hl
                                (Or.inr ⟨k, rfl, hk0⟩) pid
                                (Nat.lt_succ_of_le (chain_length_le hl))
                              rw [hwalk] at hwd
                              injection hwd with hwd
                              rcases chain_any_parent hl hmem with hany | hlink
                              · rw [hany] at hwd
                                cases hwd
                              · exact hw2 hlink
                            unfold putPageBatches putPagePlan
                            rw [hpg]
                            dsimp only
                            by_cases htitle : jsTrim (targ.getD page.title) = ""
                            · rw [if_pos htitle]
                              exact hInv
                            · rw [if_neg htitle, if_neg hw1, if_neg hw2, hwalk]
                              dsimp only
                              rw [if_neg (by simp [hfk2])]
                              rw [if_pos (Or.inl hw1)]
                              exact put_changed_run_inv db pid (targ.getD page.title)
                                (some k) _ hInv page hpg
                                (Or.inr ⟨k, rfl, hk0, hfk2⟩) hcvk rfl
                          · unfold putPageBatches putPagePlan
                            rw [hpg]
                            dsimp only
                            by_cases htitle : jsTrim (targ.getD page.title) = ""
                            · rw [if_pos htitle]
                              exact hInv
                            · rw [if_neg htitle, if_neg hw1, if_neg hw2, hwalk]
                              dsimp only
                              rw [if_pos (by simp [hfk2])]
                              exact hInv

/-! ## Claim 1: assembled -/

theorem stepOp_inv {db : Db} (op : WikiOp) (hInv : pathInv db) (hop : opAllowed op) :
    pathInv (stepOp db op) := by
  cases op with
  | create t par =>
      show pathInv (match createPage db t par with
        | .ok r => r.2
        | .error _ => db)
      cases hc : createPage db t par with
      | ok r =>
          exact createPage_inv hInv hc
      | error e =>
          exact hInv
  | put pid t par =>
      exact putPage_inv db pid t par hInv hop

theorem runOps_inv (ops : List WikiOp) (hops : ∀ o ∈ ops, opAllowed o) :
    pathInv (runOps ops) := by
  have hgen : ∀ (l : List WikiOp) (db : Db), pathInv db → (∀ o ∈ l, opAllowed o) →
      pathInv (l.foldl stepOp db) := by
    intro l
    induction l with
    | nil =>
        intro db h _
        exact h
    | cons o rest ih =>
        intro db h hall
        show pathInv (rest.foldl stepOp (stepOp db o))
        exact ih (stepOp db o) (stepOp_inv o h (hall o (List.mem_cons_self o rest)))
          (fun x hx => hall x (List.mem_cons_of_mem o hx))
  have hinit : pathInv initProjectDb := by
    refine ⟨by decide, by decide, by decide, by decide⟩
  exact hgen ops initProjectDb hinit hops

instance (o : WikiOp) : Decidable (opAllowed o) :=
  match o with
  | .create _ _ => isTrue trivial
  | .put _ _ par => inferInstanceAs (Decidable (par ≠ some (some 0)))

/-- C1, amended: after any sequence of createPage and PUT (rename or move)
operations in which no move names the sentinel page 0 as the new parent,
every page's stored path equals the specification breadcrumb: the titles on
the chain from its forest root down to the page, joined by the separator.
In particular a rename or move recomputes the path of the changed page and
of every one of its descendants, since the final table satisfies the
breadcrumb equation row by row. -/
theorem claim1_path_invariant (ops : List WikiOp) (hops : ∀ o ∈ ops, opAllowed o) :
    ∀ p ∈ (runOps ops).pages, p.path = specPath (runOps ops).pages p :=
  (runOps_inv ops hops).2.2.2

def claim1CexDb : Db :=
  runOps [WikiOp.create "A" none, WikiOp.put 1 none (some (some 0))]

/-- C1, counterexample to the unrestricted claim: moving page 1 under the
sentinel page 0 is accepted, but buildPath treats the parent id 0 as falsy
(JavaScript: `while (currentId)`), so the stored path of page 1 stays "A"
while the breadcrumb from its forest root is "Main Page > A". -/
theorem claim1_counterexample :
    findPage claim1CexDb.pages 1 = some ⟨1, "A", some 0, "A"⟩ ∧
    specPath claim1CexDb.pages ⟨1, "A", some 0, "A"⟩ = "Main Page > A" ∧
    ("A" : String) ≠ "Main Page > A" :=
  ⟨by decide, by decide, by decide⟩

def claim1WOps : List WikiOp :=
  [WikiOp.create "Black Holes" none, WikiOp.create "Event Horizon" (some 1),
    WikiOp.put 1 (some "Dark Stars") none]

/-- Witness: the specification's own rename scenario - create Black Holes,
create Event Horizon under it, rename Black Holes to Dark Stars - satisfies
the amended invariant, and the descendant's path is recomputed to
"Dark Stars > Event Horizon". -/
theorem claim1_witness :
    (∀ o ∈ claim1WOps, opAllowed o) ∧
    (∀ p ∈ (runOps claim1WOps).pages,
      p.path = specPath (runOps claim1WOps).pages p) ∧
    (findPage (runOps claim1WOps).pages 2).map Page.path =
      some "Dark Stars > Event Horizon" := by
  refine ⟨by decide, claim1_path_invariant claim1WOps (by decide), by decide⟩

end MyArchive
